import Mathlib

/-!
# Scene-graph and undo/redo engine of the Phidias editor: a shallow embedding

This file embeds the in-memory scene-graph mutation and undo/redo engine of the
repository (the zustand store `useAppStore`, together with the scene utilities
`parseSceneGraph` / `findNodeByUuid` and the `SceneGraph` component's rename
handler) and proves properties of the embedded operations.

Modelling conventions:
* A live `THREE.Object3D` tree is modelled by the inductive type `Obj`: uuid,
  display name, type tag, material id, the `userData.__originalMaterial` side
  slot, a geometry payload, a local transform, and the ordered child list.
  Geometry is abstracted to a list of integer vertices and a transform to an
  integer offset (world transform = sum of offsets along the ancestor chain),
  standing in for the opaque float payloads the engine never inspects.
* Object identity (`===` in the source) is tracked by uuid — the data model's
  invariant that identifiers are unique within a tree — or, where a definition
  can be exact without it, by position (DFS path) in the tree.
* `JSON.stringify(scene.toJSON())` followed by `ObjectLoader.parse` is a
  structure-preserving round trip, so a stored snapshot is modelled by the tree
  value itself (after the highlight-revert pass `snapshot` performs).
* All searches are depth-first, first match, exactly as `findNodeByUuid`.
-/

/-- A live scene node (`THREE.Object3D`): uuid, name, type tag (e.g. `"Mesh"`,
`"Group"`), material, the `userData.__originalMaterial` slot, geometry
vertices, local transform offset, ordered children. -/
inductive Obj where
  | node (uuid name typ : String) (mat : Int) (origMat : Option Int)
      (geom : List Int) (pos : Int) (children : List Obj)

def Obj.uuid : Obj → String
  | .node u _ _ _ _ _ _ _ => u

def Obj.name : Obj → String
  | .node _ n _ _ _ _ _ _ => n

def Obj.typ : Obj → String
  | .node _ _ ty _ _ _ _ _ => ty

def Obj.mat : Obj → Int
  | .node _ _ _ m _ _ _ _ => m

def Obj.origMat : Obj → Option Int
  | .node _ _ _ _ om _ _ _ => om

def Obj.geom : Obj → List Int
  | .node _ _ _ _ _ g _ _ => g

def Obj.pos : Obj → Int
  | .node _ _ _ _ _ _ p _ => p

def Obj.children : Obj → List Obj
  | .node _ _ _ _ _ _ _ cs => cs

/-- Induction on a tree where the hypothesis is available for every child. -/
theorem Obj.strongInduction (P : Obj → Prop)
    (h : ∀ u n ty m om g p cs, (∀ c ∈ cs, P c) → P (.node u n ty m om g p cs)) :
    ∀ t, P t
  | .node u n ty m om g p cs =>
    h u n ty m om g p cs (fun c _ => Obj.strongInduction P h c)
termination_by t => sizeOf t
decreasing_by
  have := List.sizeOf_lt_of_mem (by assumption : c ∈ cs)
  simp only [Obj.node.sizeOf_spec]
  omega

mutual

/-- All uuids of a tree in depth-first (preorder) order. -/
def treeIds : Obj → List String
  | .node u _ _ _ _ _ _ cs => u :: treeIdsL cs

def treeIdsL : List Obj → List String
  | [] => []
  | c :: rest => treeIds c ++ treeIdsL rest

end

/-- The uuids of the direct children of a node. -/
def childUuids : List Obj → List String
  | [] => []
  | c :: rest => c.uuid :: childUuids rest

def Obj.childIds (t : Obj) : List String := childUuids t.children

mutual

/-- `findNodeByUuid` from `utils/scene`: depth-first search, root first, then
children in order; returns the first node whose uuid matches. -/
def findNodeByUuid : Obj → String → Option Obj
  | t@(.node u _ _ _ _ _ _ cs), id => if u = id then some t else findInChildren cs id

def findInChildren : List Obj → String → Option Obj
  | [], _ => none
  | c :: rest, id =>
    match findNodeByUuid c id with
    | some r => some r
    | none => findInChildren rest id

end

mutual

/-- DFS path (child indices) of the first node whose uuid matches. A node's
path is its object identity: two references denote the same object exactly
when their paths agree. -/
def pathTo : Obj → String → Option (List Nat)
  | .node u _ _ _ _ _ _ cs, id => if u = id then some [] else pathToL cs id 0

def pathToL : List Obj → String → Nat → Option (List Nat)
  | [], _, _ => none
  | c :: rest, id, i =>
    match pathTo c id with
    | some p => some (i :: p)
    | none => pathToL rest id (i + 1)

end

/-- The serializable mirror node (`SceneNode` in the store): id, name, type,
children. -/
inductive SceneNode where
  | mk (id name typ : String) (children : List SceneNode)

def SceneNode.id : SceneNode → String
  | .mk i _ _ _ => i

def SceneNode.name : SceneNode → String
  | .mk _ n _ _ => n

mutual

/-- `parseSceneGraph` from `utils/scene`: projects a live node to a mirror
node; an empty display name falls back to `"Node_" + uuid.slice(0, 4)`. -/
def parseSceneGraph : Obj → SceneNode
  | .node u n ty _ _ _ _ cs =>
    .mk u (if n = "" then "Node_" ++ String.mk (u.data.take 4) else n) ty (parseChildren cs)

def parseChildren : List Obj → List SceneNode
  | [] => []
  | c :: rest => parseSceneGraph c :: parseChildren rest

end

/-- The store's mirror refresh `scene.children.map(parseSceneGraph)`. -/
def mirrorOf (t : Obj) : List SceneNode := parseChildren t.children

mutual

/-- Depth-first first-match search over mirror nodes (what the `SceneGraph`
component renders and reads names from). -/
def findMirror : SceneNode → String → Option SceneNode
  | m@(.mk i _ _ cs), id => if i = id then some m else findMirrorL cs id

def findMirrorL : List SceneNode → String → Option SceneNode
  | [], _ => none
  | c :: rest, id =>
    match findMirror c id with
    | some r => some r
    | none => findMirrorL rest id

end

mutual

/-- `parent.remove(child)`-style surgery: remove the first (DFS) node with the
given uuid from its parent's child list, returning the remaining tree and the
removed subtree. The root itself is never removed (it has no parent). -/
def detach : Obj → String → Option (Obj × Obj)
  | .node u n ty m om g p cs, id =>
    match detachL cs id with
    | some (cs', sub) => some (.node u n ty m om g p cs', sub)
    | none => none

def detachL : List Obj → String → Option (List Obj × Obj)
  | [], _ => none
  | c :: rest, id =>
    if c.uuid = id then some (rest, c)
    else
      match detach c id with
      | some (c', sub) => some (c' :: rest, sub)
      | none =>
        match detachL rest id with
        | some (rest', sub) => some (c :: rest', sub)
        | none => none

end

mutual

/-- `parent.add(child)`-style insertion for a child not currently in the tree:
append it to the child list of the first (DFS) node with the given uuid. -/
def insertUnderOpt : Obj → String → Obj → Option Obj
  | .node u n ty m om g p cs, id, c =>
    if u = id then some (.node u n ty m om g p (cs ++ [c]))
    else (insertUnderL cs id c).map (fun cs' => .node u n ty m om g p cs')

def insertUnderL : List Obj → String → Obj → Option (List Obj)
  | [], _, _ => none
  | x :: rest, id, c =>
    match insertUnderOpt x id c with
    | some x' => some (x' :: rest)
    | none => (insertUnderL rest id c).map (fun rest' => x :: rest')

end

def insertUnder (t : Obj) (id : String) (c : Obj) : Obj := (insertUnderOpt t id c).getD t

/-- The scene-visible effect of `parent.add(child)` when both are referenced by
uuid: detach the child's subtree, then re-attach it under the parent if the
parent is still reachable in the scene; if the parent went with the detached
part (the cyclic case) the subtree simply leaves the scene. -/
def sceneAdd (w : Obj) (parentId childId : String) : Obj :=
  match detach w childId with
  | some (w', sub) => insertUnder w' parentId sub
  | none => w

mutual

/-- `node.name = newName` on the first DFS match; `none` when the uuid does not
resolve. -/
def renameFirstOpt : Obj → String → String → Option Obj
  | .node u n ty m om g p cs, id, nm =>
    if u = id then some (.node u nm ty m om g p cs)
    else (renameFirstL cs id nm).map (fun cs' => .node u n ty m om g p cs')

def renameFirstL : List Obj → String → String → Option (List Obj)
  | [], _, _ => none
  | c :: rest, id, nm =>
    match renameFirstOpt c id nm with
    | some c' => some (c' :: rest)
    | none => (renameFirstL rest id nm).map (fun rest' => c :: rest')

end

mutual

/-- The highlight-revert pass `snapshot` performs before serializing: a mesh
whose `userData.__originalMaterial` slot is set is serialized with that
original material instead of the (possibly highlight) current one. -/
def revertHighlights : Obj → Obj
  | .node u n ty m om g p cs =>
    .node u n ty (if ty = "Mesh" then om.getD m else m) om g p (revertHighlightsL cs)

def revertHighlightsL : List Obj → List Obj
  | [] => []
  | c :: rest => revertHighlights c :: revertHighlightsL rest

end

mutual

/-- Structural equality of live trees: same uuid, display name, type tag and
recursively equal child lists — the shape the mirror (`{id, name, type,
children}`) projects. -/
def structEq : Obj → Obj → Bool
  | .node u1 n1 t1 _ _ _ _ cs1, .node u2 n2 t2 _ _ _ _ cs2 =>
    u1 == u2 && n1 == n2 && t1 == t2 && structEqL cs1 cs2

def structEqL : List Obj → List Obj → Bool
  | [], [] => true
  | a :: as, b :: bs => structEq a b && structEqL as bs
  | _, _ => false

end

/-- Structural equality of optional scenes. -/
def sceneStructEq : Option Obj → Option Obj → Bool
  | some a, some b => structEq a b
  | none, none => true
  | _, _ => false

mutual

/-- World transform (`matrixWorld`) of the first DFS match: the sum of the
local offsets along the chain from the root down to the node, inclusive. -/
def worldOffsetFrom : Int → Obj → String → Option Int
  | acc, .node u _ _ _ _ _ p cs, id =>
    if u = id then some (acc + p) else worldOffsetFromL (acc + p) cs id

def worldOffsetFromL : Int → List Obj → String → Option Int
  | _, [], _ => none
  | acc, c :: rest, id =>
    match worldOffsetFrom acc c id with
    | some r => some r
    | none => worldOffsetFromL acc rest id

end

def worldOffset (t : Obj) (id : String) : Int := (worldOffsetFrom 0 t id).getD 0

mutual

/-- One-pass tree surgery for `reparentNode`'s mutation: with all positions in
the coordinates of the unmodified tree, delete the subtree at `cp` from its
parent's child list and append `sub` to the children of the node at `pp`
(`pp` is never inside the subtree at `cp` when this is called: the cycle
guard already rejected that case). -/
def reparentGo : List Nat → List Nat → List Nat → Obj → Obj → Obj
  | cur, cp, pp, sub, .node u n ty m om g p cs =>
    let cs' := reparentGoL cur 0 cp pp sub cs
    .node u n ty m om g p (if cur = pp then cs' ++ [sub] else cs')

def reparentGoL : List Nat → Nat → List Nat → List Nat → Obj → List Obj → List Obj
  | _, _, _, _, _, [] => []
  | cur, i, cp, pp, sub, c :: rest =>
    if cur ++ [i] = cp then reparentGoL cur (i + 1) cp pp sub rest
    else reparentGo (cur ++ [i]) cp pp sub c :: reparentGoL cur (i + 1) cp pp sub rest

end

mutual

/-- The uuid of the parent of the first DFS match (`node.parent`): `none` when
the uuid does not resolve or resolves to the root. -/
def parentUuidOf : Obj → String → Option String
  | .node u _ _ _ _ _ _ cs, id => if u = id then none else parentUuidL u cs id

def parentUuidL : String → List Obj → String → Option String
  | _, [], _ => none
  | pu, c :: rest, id =>
    if c.uuid = id then some pu
    else
      match parentUuidOf c id with
      | some r => some r
      | none => parentUuidL pu rest id

end

/-- JavaScript's `String.prototype.trim`: strip whitespace from both ends. -/
def jsTrim (s : String) : String :=
  String.mk (((s.data.dropWhile Char.isWhitespace).reverse.dropWhile Char.isWhitespace).reverse)

/-! ## The store state and its actions (`useAppStore`, `src/unnamed/part_013`) -/

/-- The slice of the zustand store the scene-graph engine reads and writes:
the live scene, its mirror, the selection, the bulk-rename flag, and the
undo/redo stacks (`history` most-recent-last, `future` soonest-first).
A stack entry is the serialized tree, modelled by the tree value itself. -/
structure AppState where
  scene : Option Obj
  sceneGraph : List SceneNode
  selectedNodeIds : List String
  hasRenamed : Bool
  history : List Obj
  future : List Obj

/-- `setSelectedNodes`: `set({ selectedNodeIds: ids })`. -/
def setSelectedNodes (ids : List String) (s : AppState) : AppState :=
  { s with selectedNodeIds := ids }

/-- `toggleNodeSelection(id, multiSelect)`. -/
def toggleNodeSelection (id : String) (multiSelect : Bool) (s : AppState) : AppState :=
  let isSelected := id ∈ s.selectedNodeIds
  if multiSelect then
    { s with selectedNodeIds :=
        if isSelected then s.selectedNodeIds.filter (fun n => n ≠ id)
        else s.selectedNodeIds ++ [id] }
  else
    { s with selectedNodeIds := if isSelected then [] else [id] }

/-- `renameNode(id, newName)`: look the node up; if found, set its name and
refresh the mirror; otherwise do nothing. -/
def renameNode (id newName : String) (s : AppState) : AppState :=
  match s.scene with
  | none => s
  | some root =>
    match renameFirstOpt root id newName with
    | some root2 => { s with scene := some root2, sceneGraph := mirrorOf root2 }
    | none => s

/-- `handleRename` in the `SceneGraph` component: the rename UI commits
`renameNode(node.id, editName)` only when the edited text is non-blank and
differs from the displayed (mirror) name of the row. -/
def handleRename (id editName : String) (s : AppState) : AppState :=
  match findMirrorL s.sceneGraph id with
  | none => s
  | some m => if jsTrim editName ≠ "" ∧ editName ≠ m.name then renameNode id editName s else s

/-- `updateNodeNames(updates)`: apply each `{id, name}` that resolves, in
order; refresh the mirror and set `hasRenamed` when at least one resolved. -/
def updateNodeNames (updates : List (String × String)) (s : AppState) : AppState :=
  match s.scene with
  | none => s
  | some root =>
    let step := fun (acc : Obj × Bool) (u : String × String) =>
      match renameFirstOpt acc.1 u.1 u.2 with
      | some w' => (w', true)
      | none => acc
    let r := updates.foldl step (root, false)
    if r.2 then { s with scene := some r.1, sceneGraph := mirrorOf r.1, hasRenamed := true }
    else s

/-- The ids of `groupNodes`' `nodesToGroup` list: input ids that resolve to a
node with a non-null parent (the first DFS match is not the scene root),
in input order, multiplicities kept. -/
def resolvedGroupIds (root : Obj) (ids : List String) : List String :=
  ids.filter (fun id => (findNodeByUuid root id).isSome && id ≠ root.uuid)

/-- `groupNodes(ids)`: resolve the ids up front, bail out if none resolves,
create a fresh `"New Group"` container under the first resolved node's
parent, then `newGroup.add(node)` each resolved node in order. `freshId`
stands for the uuid THREE generates for the new group. -/
def groupNodes (ids : List String) (freshId : String) (s : AppState) : AppState :=
  match s.scene with
  | none => s
  | some root =>
    if ids = [] then s
    else
      let resolved := resolvedGroupIds root ids
      if resolved = [] then s
      else
        match resolved.head? with
        | none => s
        | some firstId =>
          match parentUuidOf root firstId with
          | none => s
          | some commonParentId =>
            let newGroup : Obj := .node freshId "New Group" "Group" 0 none [] 0 []
            let w1 := insertUnder root commonParentId newGroup
            let wF := resolved.foldl (fun w nId => sceneAdd w freshId nId) w1
            { s with
              scene := some wF
              sceneGraph := mirrorOf wF
              selectedNodeIds := [freshId] }

/-- `reparentNode(childId, parentId)`: resolve both; reject when they are the
same object or when the upward walk from the parent reaches the child (the
cycle guard); otherwise `parent.add(child)`. Object identity is positional:
the first-match DFS paths coincide exactly when the references coincide, and
the walk from the parent meets the child exactly when the child's path is a
proper prefix of the parent's. -/
def reparentNode (childId parentId : String) (s : AppState) : AppState :=
  match s.scene with
  | none => s
  | some root =>
    match pathTo root childId, pathTo root parentId with
    | some cp, some pp =>
      if cp = pp then s
      else if cp.isPrefixOf pp then s
      else
        match findNodeByUuid root childId with
        | none => s
        | some child =>
          let root2 := reparentGo [] cp pp child root
          { s with scene := some root2, sceneGraph := mirrorOf root2 }
    | _, _ => s

/-- `snapshot()`: serialize the live tree with highlights reverted, push onto
`history`, drop the oldest entry past depth 20, clear `future`. -/
def snapshot (s : AppState) : AppState :=
  match s.scene with
  | none => s
  | some t =>
    let json := revertHighlights t
    let newHistory := s.history ++ [json]
    { s with
      history := if newHistory.length > 20 then newHistory.tail else newHistory
      future := [] }

/-- `undo()`: no-op when `history` is empty or there is no scene; otherwise
push the serialized current tree to the front of `future`, pop the most
recent history entry and make it the live scene (and mirror). -/
def undo (s : AppState) : AppState :=
  match s.scene, s.history.getLast? with
  | some t, some prev =>
    { s with
      history := s.history.dropLast
      future := t :: s.future
      scene := some prev
      sceneGraph := mirrorOf prev }
  | _, _ => s

/-- `redo()`: symmetric to `undo()` on the `future` stack. -/
def redo (s : AppState) : AppState :=
  match s.scene, s.future with
  | some t, next :: rest =>
    { s with
      history := s.history ++ [t]
      future := rest
      scene := some next
      sceneGraph := mirrorOf next }
  | _, _ => s

/-- The mesh nodes `mergeNodes` collects from the selection: first DFS match
of each selected id, kept when it is a mesh, in selection order. -/
def resolvedMeshes (root : Obj) (ids : List String) : List Obj :=
  (ids.filterMap (findNodeByUuid root)).filter (fun n => n.typ = "Mesh")

/-- A mesh's geometry transformed to world space
(`geom.applyMatrix4(mesh.matrixWorld)`). -/
def worldGeom (root : Obj) (m : Obj) : List Int :=
  m.geom.map (fun v => v + worldOffset root m.uuid)

/-- The concatenation `BufferGeometryUtils.mergeGeometries` produces, in
contributor order. -/
def combinedWorldGeom (root : Obj) (meshes : List Obj) : List Int :=
  (meshes.map (worldGeom root)).flatten

/-- The bounding-box center `getCenter` of a vertex list (midpoint of the
extremes; 0 for an empty geometry). -/
def bbCenter (l : List Int) : Int := ((l.min?.getD 0) + (l.max?.getD 0)) / 2

/-- `mesh.parent.remove(mesh)` by uuid: drop the first DFS match from its
parent's child list; no-op when the uuid is no longer in the scene (the
`if (mesh.parent)` guard / an already-detached mesh). -/
def removeFromParent (w : Obj) (u : String) : Obj :=
  match detach w u with
  | some (w', _) => w'
  | none => w

/-- `mergeNodes()`: needs at least two selected ids resolving to meshes;
clones their geometries into world space and hands them to
`BufferGeometryUtils.mergeGeometries(geometries, false)`. That library call
can return `null` — it does so whenever the contributors' geometry layouts
disagree (indexed vs non-indexed buffers, differing attribute or morph sets),
structure the position-list abstraction does not carry — and
`if (!mergedGeometry) return` (like the surrounding `catch`) then aborts the
merge leaving the state untouched; `mergeOk` stands for whether the call
yields a geometry. On success the merged geometry is the contributors'
world-space concatenation: the new mesh carries it re-centered on its
bounding-box center (the center becomes the node's position), the first
contributor's material (preferring its `__originalMaterial`), is added to the
scene root, every contributing mesh is removed from its parent, and the new
mesh is selected. `freshId`/`freshName` stand for the generated uuid and
`Merged_Part_<timestamp>` name. -/
def mergeNodes (freshId freshName : String) (mergeOk : Bool) (s : AppState) : AppState :=
  match s.scene with
  | none => s
  | some root =>
    if s.selectedNodeIds.length < 2 then s
    else
      let meshes := resolvedMeshes root s.selectedNodeIds
      if meshes.length < 2 then s
      else
        match meshes.head? with
        | none => s
        | some firstMesh =>
          if mergeOk then
            let firstMat := firstMesh.origMat.getD firstMesh.mat
            let merged := combinedWorldGeom root meshes
            let center := bbCenter merged
            let newMesh : Obj :=
              .node freshId freshName "Mesh" firstMat none (merged.map (fun v => v - center))
                center []
            let root1 := insertUnder root root.uuid newMesh
            let root2 := meshes.foldl (fun w m => removeFromParent w m.uuid) root1
            { s with
              scene := some root2
              sceneGraph := mirrorOf root2
              selectedNodeIds := [freshId] }
          else s

/-! ## Bulk auto-rename naming (`handleAutoRename`, `src/unnamed/part_005`) -/

/-- The candidate names the duplicate guard tries in order: the base name the
model proposed, then `base_1`, `base_2`, … . The while loop stops at the
first candidate not yet assigned in the batch; a free candidate always
exists among the first `assigned.length + 1` suffixed ones. -/
def nameCandidates (assigned : List String) (base : String) : List String :=
  base :: (List.range (assigned.length + 1)).map (fun k => base ++ "_" ++ toString (k + 1))

/-- The duplicate-name guard: the first candidate that does not collide with a
name already assigned earlier in the batch. -/
def pickName (assigned : List String) (base : String) : String :=
  ((nameCandidates assigned base).find? (fun c => !assigned.contains c)).getD base

/-- The names `handleAutoRename` pushes into its `updates` list, in batch
order, for a given list of model-proposed base names. -/
def assignNames (proposed : List String) : List String :=
  proposed.foldl (fun acc base => acc ++ [pickName acc base]) []

/-! ## Mutation operations as a type, and undo/redo iteration -/

/-- The tree-mutating store operations of the spec's §4.3, as first-class
data so a property can quantify over "any mutation operation". -/
inductive Mutation where
  | rename (id newName : String)
  | group (ids : List String) (freshId : String)
  | reparent (childId parentId : String)
  | merge (freshId freshName : String) (mergeOk : Bool)
  | updateNames (updates : List (String × String))

def applyMutation : Mutation → AppState → AppState
  | .rename id nm, s => renameNode id nm s
  | .group ids freshId, s => groupNodes ids freshId s
  | .reparent c p, s => reparentNode c p s
  | .merge fid fn ok, s => mergeNodes fid fn ok s
  | .updateNames ups, s => updateNodeNames ups s

/-- `k` consecutive `undo()` calls. -/
def undoIter : Nat → AppState → AppState
  | 0, s => s
  | k + 1, s => undoIter k (undo s)

/-! ## Basic facts about the tree primitives -/

mutual

theorem findNodeByUuid_eq_none : ∀ (t : Obj) (id : String),
    findNodeByUuid t id = none ↔ id ∉ treeIds t
  | .node u n ty m om g p cs, id => by
    by_cases h : u = id
    · subst h
      simp [findNodeByUuid, treeIds]
    · simp [findNodeByUuid, treeIds, h, findInChildren_eq_none cs id, Ne.symm h]

theorem findInChildren_eq_none : ∀ (cs : List Obj) (id : String),
    findInChildren cs id = none ↔ id ∉ treeIdsL cs
  | [], id => by simp [findInChildren, treeIdsL]
  | c :: rest, id => by
    simp only [findInChildren, treeIdsL, List.mem_append]
    cases hf : findNodeByUuid c id with
    | some r =>
      have : ¬ (findNodeByUuid c id = none) := by simp [hf]
      rw [findNodeByUuid_eq_none c id] at this
      push_neg at this
      simp [this]
    | none =>
      have := (findNodeByUuid_eq_none c id).mp hf
      simp [this, findInChildren_eq_none rest id]

end

theorem findNodeByUuid_isSome (t : Obj) (id : String) :
    (findNodeByUuid t id).isSome ↔ id ∈ treeIds t := by
  cases hf : findNodeByUuid t id with
  | some r =>
    have : ¬ (findNodeByUuid t id = none) := by simp [hf]
    rw [findNodeByUuid_eq_none t id] at this
    simpa using this
  | none => simpa using (findNodeByUuid_eq_none t id).mp hf

mutual

theorem findNodeByUuid_uuid : ∀ (t : Obj) (id : String) (r : Obj),
    findNodeByUuid t id = some r → r.uuid = id
  | .node u n ty m om g p cs, id, r => by
    by_cases h : u = id
    · subst h
      simp [findNodeByUuid]
      rintro rfl
      rfl
    · simp only [findNodeByUuid, if_neg h]
      exact findInChildren_uuid cs id r

theorem findInChildren_uuid : ∀ (cs : List Obj) (id : String) (r : Obj),
    findInChildren cs id = some r → r.uuid = id
  | [], id, r => by simp [findInChildren]
  | c :: rest, id, r => by
    simp only [findInChildren]
    cases hf : findNodeByUuid c id with
    | some x =>
      intro h
      cases h
      exact findNodeByUuid_uuid c id r hf
    | none => exact findInChildren_uuid rest id r

end

mutual

theorem findNodeByUuid_sub_ids : ∀ (t : Obj) (id : String) (r : Obj),
    findNodeByUuid t id = some r → ∀ x ∈ treeIds r, x ∈ treeIds t
  | .node u n ty m om g p cs, id, r => by
    by_cases h : u = id
    · subst h
      simp only [findNodeByUuid, if_pos rfl]
      rintro h x hx
      cases h
      exact hx
    · simp only [findNodeByUuid, if_neg h]
      intro hf x hx
      have := findInChildren_sub_ids cs id r hf x hx
      simp [treeIds, this]

theorem findInChildren_sub_ids : ∀ (cs : List Obj) (id : String) (r : Obj),
    findInChildren cs id = some r → ∀ x ∈ treeIds r, x ∈ treeIdsL cs
  | [], id, r => by simp [findInChildren]
  | c :: rest, id, r => by
    simp only [findInChildren]
    cases hf : findNodeByUuid c id with
    | some x =>
      intro h y hy
      cases h
      simp [treeIdsL, findNodeByUuid_sub_ids c id r hf y hy]
    | none =>
      intro h y hy
      simp [treeIdsL, Or.inr (findInChildren_sub_ids rest id r h y hy)]

end

theorem childUuids_sub_treeIdsL : ∀ (cs : List Obj), ∀ x ∈ childUuids cs, x ∈ treeIdsL cs
  | [], x => by simp [childUuids]
  | c :: rest, x => by
    cases c with
    | node u n ty m om g p cs2 =>
      simp only [childUuids, treeIdsL, List.mem_cons, List.mem_append]
      rintro (rfl | h)
      · exact Or.inl (by simp [treeIds, Obj.uuid])
      · exact Or.inr (childUuids_sub_treeIdsL rest x h)

theorem childIds_sub_treeIds (t : Obj) : ∀ x ∈ t.childIds, x ∈ treeIds t := by
  cases t with
  | node u n ty m om g p cs =>
    intro x hx
    simp only [treeIds, List.mem_cons]
    exact Or.inr (childUuids_sub_treeIdsL cs x (by simpa [Obj.childIds, Obj.children] using hx))

mutual

theorem detach_isSome : ∀ (t : Obj) (id : String), id ∈ treeIds t → id ≠ t.uuid →
    ∃ t' sub, detach t id = some (t', sub)
  | .node u n ty m om g p cs, id => by
    intro hmem hne
    simp only [treeIds, List.mem_cons] at hmem
    have hm : id ∈ treeIdsL cs := by
      rcases hmem with h | h
      · exact absurd h (by simpa [Obj.uuid] using hne)
      · exact h
    obtain ⟨cs', sub, h⟩ := detachL_isSome cs id hm
    exact ⟨.node u n ty m om g p cs', sub, by simp [detach, h]⟩

theorem detachL_isSome : ∀ (cs : List Obj) (id : String), id ∈ treeIdsL cs →
    ∃ cs' sub, detachL cs id = some (cs', sub)
  | [], id => by simp [treeIdsL]
  | c :: rest, id => by
    intro hmem
    by_cases hc : c.uuid = id
    · exact ⟨rest, c, by simp [detachL, hc]⟩
    · simp only [treeIdsL, List.mem_append] at hmem
      cases hd : detach c id with
      | some pr =>
        exact ⟨pr.1 :: rest, pr.2, by simp [detachL, if_neg hc, hd]⟩
      | none =>
        have hrest : id ∈ treeIdsL rest := by
          rcases hmem with h | h
          · exfalso
            have hne : id ≠ c.uuid := fun he => hc he.symm
            obtain ⟨c', sub, h'⟩ := detach_isSome c id h hne
            rw [h'] at hd
            cases hd
          · exact h
        obtain ⟨rest', sub, h'⟩ := detachL_isSome rest id hrest
        exact ⟨c :: rest', sub, by simp [detachL, if_neg hc, hd, h']⟩

end

theorem detach_shape (u n ty : String) (m : Int) (om : Option Int) (g : List Int) (p : Int)
    (cs : List Obj) (id : String) (t' sub : Obj)
    (h : detach (.node u n ty m om g p cs) id = some (t', sub)) :
    ∃ cs', detachL cs id = some (cs', sub) ∧ t' = .node u n ty m om g p cs' := by
  simp only [detach] at h
  cases hd : detachL cs id with
  | some pr =>
    rw [hd] at h
    cases h
    exact ⟨pr.1, by simp, rfl⟩
  | none => rw [hd] at h; cases h

theorem detachL_cases (c : Obj) (rest : List Obj) (id : String) (cs' : List Obj) (sub : Obj)
    (h : detachL (c :: rest) id = some (cs', sub)) :
    (c.uuid = id ∧ cs' = rest ∧ sub = c) ∨
    (c.uuid ≠ id ∧ ∃ c', detach c id = some (c', sub) ∧ cs' = c' :: rest) ∨
    (c.uuid ≠ id ∧ detach c id = none ∧
      ∃ rest', detachL rest id = some (rest', sub) ∧ cs' = c :: rest') := by
  simp only [detachL] at h
  by_cases hc : c.uuid = id
  · rw [if_pos hc] at h
    cases h
    exact Or.inl ⟨hc, rfl, rfl⟩
  · rw [if_neg hc] at h
    cases hd : detach c id with
    | some pr =>
      rw [hd] at h
      cases h
      exact Or.inr (Or.inl ⟨hc, pr.1, by simp, rfl⟩)
    | none =>
      rw [hd] at h
      cases hdl : detachL rest id with
      | some pr =>
        rw [hdl] at h
        cases h
        exact Or.inr (Or.inr ⟨hc, rfl, pr.1, by simp, rfl⟩)
      | none => rw [hdl] at h; cases h

mutual

theorem detach_sub_uuid : ∀ (t : Obj) (id : String) (t' sub : Obj),
    detach t id = some (t', sub) → sub.uuid = id
  | .node u n ty m om g p cs, id, t', sub => by
    intro h
    obtain ⟨cs', hd, _⟩ := detach_shape u n ty m om g p cs id t' sub h
    exact detachL_sub_uuid cs id cs' sub hd

theorem detachL_sub_uuid : ∀ (cs : List Obj) (id : String) (cs' : List Obj) (sub : Obj),
    detachL cs id = some (cs', sub) → sub.uuid = id
  | [], id, cs', sub => by simp [detachL]
  | c :: rest, id, cs', sub => by
    intro h
    rcases detachL_cases c rest id cs' sub h with ⟨hc, _, rfl⟩ | ⟨_, c', hd, _⟩ | ⟨_, _, rest', hdl, _⟩
    · exact hc
    · exact detach_sub_uuid c id c' sub hd
    · exact detachL_sub_uuid rest id rest' sub hdl

end

mutual

theorem detach_perm : ∀ (t : Obj) (id : String) (t' sub : Obj),
    detach t id = some (t', sub) → List.Perm (treeIds t) (treeIds t' ++ treeIds sub)
  | .node u n ty m om g p cs, id, t', sub => by
    intro h
    obtain ⟨cs', hd, rfl⟩ := detach_shape u n ty m om g p cs id t' sub h
    have := detachL_perm cs id cs' sub hd
    simpa [treeIds] using this.cons u

theorem detachL_perm : ∀ (cs : List Obj) (id : String) (cs' : List Obj) (sub : Obj),
    detachL cs id = some (cs', sub) → List.Perm (treeIdsL cs) (treeIdsL cs' ++ treeIds sub)
  | [], id, cs', sub => by simp [detachL]
  | c :: rest, id, cs', sub => by
    intro h
    rcases detachL_cases c rest id cs' sub h with ⟨_, rfl, rfl⟩ | ⟨_, c', hd, rfl⟩ |
      ⟨_, _, rest', hdl, rfl⟩
    · simpa [treeIdsL] using List.perm_append_comm
    · have h1 := detach_perm c id c' sub hd
      have h2 : List.Perm ((treeIds c' ++ treeIds sub) ++ treeIdsL rest)
          ((treeIds c' ++ treeIdsL rest) ++ treeIds sub) := by
        rw [List.append_assoc, List.append_assoc]
        exact List.Perm.append_left _ List.perm_append_comm
      simpa [treeIdsL] using (h1.append_right (treeIdsL rest)).trans h2
    · have h1 := detachL_perm rest id rest' sub hdl
      have h2 := List.Perm.append_left (treeIds c) h1
      simpa [treeIdsL, List.append_assoc] using h2
end

theorem treeIdsL_append : ∀ (cs ds : List Obj), treeIdsL (cs ++ ds) = treeIdsL cs ++ treeIdsL ds
  | [], ds => by simp [treeIdsL]
  | c :: rest, ds => by simp [treeIdsL, treeIdsL_append rest ds]

mutual

theorem insertUnderOpt_eq_none : ∀ (t : Obj) (g : String) (c : Obj),
    insertUnderOpt t g c = none ↔ g ∉ treeIds t
  | .node u n ty m om gm p cs, g, c => by
    by_cases h : u = g
    · subst h
      simp [insertUnderOpt, treeIds]
    · simp [insertUnderOpt, treeIds, h, Ne.symm h, insertUnderL_eq_none cs g c]

theorem insertUnderL_eq_none : ∀ (cs : List Obj) (g : String) (c : Obj),
    insertUnderL cs g c = none ↔ g ∉ treeIdsL cs
  | [], g, c => by simp [insertUnderL, treeIdsL]
  | x :: rest, g, c => by
    simp only [insertUnderL, treeIdsL, List.mem_append]
    cases hf : insertUnderOpt x g c with
    | some r =>
      have : ¬ (insertUnderOpt x g c = none) := by simp [hf]
      rw [insertUnderOpt_eq_none x g c] at this
      push_neg at this
      simp [this]
    | none =>
      have := (insertUnderOpt_eq_none x g c).mp hf
      simp [this, insertUnderL_eq_none rest g c]

end

theorem insertUnder_of_not_mem (t : Obj) (g : String) (c : Obj) (h : g ∉ treeIds t) :
    insertUnder t g c = t := by
  unfold insertUnder
  rw [(insertUnderOpt_eq_none t g c).mpr h]
  rfl

theorem insertUnderL_cases (x : Obj) (rest : List Obj) (g : String) (c : Obj)
    (cs2 : List Obj) (h : insertUnderL (x :: rest) g c = some cs2) :
    (∃ x', insertUnderOpt x g c = some x' ∧ cs2 = x' :: rest) ∨
    (insertUnderOpt x g c = none ∧
      ∃ rest', insertUnderL rest g c = some rest' ∧ cs2 = x :: rest') := by
  simp only [insertUnderL] at h
  cases hf : insertUnderOpt x g c with
  | some x' =>
    rw [hf] at h
    cases h
    exact Or.inl ⟨x', rfl, rfl⟩
  | none =>
    rw [hf] at h
    cases hl : insertUnderL rest g c with
    | some rest' =>
      rw [hl] at h
      cases h
      exact Or.inr ⟨rfl, rest', rfl, rfl⟩
    | none => rw [hl] at h; cases h

theorem insertUnderOpt_shape (u n ty : String) (m : Int) (om : Option Int) (gm : List Int)
    (p : Int) (cs : List Obj) (g : String) (c : Obj) (t2 : Obj)
    (h : insertUnderOpt (.node u n ty m om gm p cs) g c = some t2) :
    (u = g ∧ t2 = .node u n ty m om gm p (cs ++ [c])) ∨
    (u ≠ g ∧ ∃ cs2, insertUnderL cs g c = some cs2 ∧ t2 = .node u n ty m om gm p cs2) := by
  simp only [insertUnderOpt] at h
  by_cases hu : u = g
  · rw [if_pos hu] at h
    cases h
    exact Or.inl ⟨hu, rfl⟩
  · rw [if_neg hu] at h
    cases hl : insertUnderL cs g c with
    | some cs2 =>
      rw [hl] at h
      cases h
      exact Or.inr ⟨hu, cs2, rfl, rfl⟩
    | none => rw [hl] at h; cases h

mutual

theorem insertUnderOpt_perm : ∀ (t : Obj) (g : String) (c : Obj) (t2 : Obj),
    insertUnderOpt t g c = some t2 → List.Perm (treeIds t2) (treeIds t ++ treeIds c)
  | .node u n ty m om gm p cs, g, c, t2 => by
    intro h
    rcases insertUnderOpt_shape u n ty m om gm p cs g c t2 h with ⟨_, rfl⟩ |
      ⟨_, cs2, hl, rfl⟩
    · simp [treeIds, treeIdsL_append, treeIdsL, List.append_assoc]
    · have := insertUnderL_perm cs g c cs2 hl
      simpa [treeIds] using this.cons u

theorem insertUnderL_perm : ∀ (cs : List Obj) (g : String) (c : Obj) (cs2 : List Obj),
    insertUnderL cs g c = some cs2 → List.Perm (treeIdsL cs2) (treeIdsL cs ++ treeIds c)
  | [], g, c, cs2 => by simp [insertUnderL]
  | x :: rest, g, c, cs2 => by
    intro h
    rcases insertUnderL_cases x rest g c cs2 h with ⟨x', hx, rfl⟩ | ⟨_, rest', hl, rfl⟩
    · have h1 := insertUnderOpt_perm x g c x' hx
      have h2 := h1.append_right (treeIdsL rest)
      have h3 : List.Perm ((treeIds x ++ treeIds c) ++ treeIdsL rest)
          ((treeIds x ++ treeIdsL rest) ++ treeIds c) := by
        rw [List.append_assoc, List.append_assoc]
        exact List.Perm.append_left _ List.perm_append_comm
      simpa [treeIdsL] using h2.trans h3
    · have h1 := insertUnderL_perm rest g c rest' hl
      have h2 := List.Perm.append_left (treeIds x) h1
      simpa [treeIdsL, List.append_assoc] using h2

end

theorem uuid_mem_treeIds (t : Obj) : t.uuid ∈ treeIds t := by
  cases t with
  | node u n ty m om g p cs => simp [treeIds, Obj.uuid]

theorem findNodeByUuid_some_of_mem (t : Obj) (q : String) (h : q ∈ treeIds t) :
    ∃ r, findNodeByUuid t q = some r := by
  cases hf : findNodeByUuid t q with
  | some r => exact ⟨r, rfl⟩
  | none => exact absurd h ((findNodeByUuid_eq_none t q).mp hf)

theorem findInChildren_some_of_mem (cs : List Obj) (q : String) (h : q ∈ treeIdsL cs) :
    ∃ r, findInChildren cs q = some r := by
  cases hf : findInChildren cs q with
  | some r => exact ⟨r, rfl⟩
  | none => exact absurd h ((findInChildren_eq_none cs q).mp hf)

theorem detach_mem (t : Obj) (id : String) (t' sub : Obj) (h : detach t id = some (t', sub)) :
    id ∈ treeIds t := by
  have h1 := detach_sub_uuid t id t' sub h
  have h2 := (detach_perm t id t' sub h).mem_iff (a := id)
  rw [h2]
  exact List.mem_append_right _ (h1 ▸ uuid_mem_treeIds sub)

theorem detachL_mem (cs : List Obj) (id : String) (cs' : List Obj) (sub : Obj)
    (h : detachL cs id = some (cs', sub)) : id ∈ treeIdsL cs := by
  have h1 := detachL_sub_uuid cs id cs' sub h
  have h2 := (detachL_perm cs id cs' sub h).mem_iff (a := id)
  rw [h2]
  exact List.mem_append_right _ (h1 ▸ uuid_mem_treeIds sub)

theorem detach_root_uuid (t : Obj) (id : String) (t' sub : Obj)
    (h : detach t id = some (t', sub)) : t'.uuid = t.uuid := by
  cases t with
  | node u n ty m om g p cs =>
    obtain ⟨cs', _, rfl⟩ := detach_shape u n ty m om g p cs id t' sub h
    rfl

theorem detachL_childUuids : ∀ (cs : List Obj) (id : String) (cs' : List Obj) (sub : Obj),
    (treeIdsL cs).Nodup → detachL cs id = some (cs', sub) →
    childUuids cs' = (childUuids cs).erase id
  | [], id, cs', sub => by simp [detachL]
  | c :: rest, id, cs', sub => by
    intro hnd h
    have hdisj : ∀ x ∈ treeIds c, x ∉ treeIdsL rest := by
      intro x hx
      have := (List.nodup_append.mp (by simpa [treeIdsL] using hnd)).2.2
      exact this hx
    rcases detachL_cases c rest id cs' sub h with ⟨hc, rfl, rfl⟩ | ⟨hc, c', hd, rfl⟩ |
      ⟨hc, hdn, rest', hdl, rfl⟩
    · simp [childUuids, hc]
    · have hmem : id ∈ treeIds c := detach_mem c id c' sub hd
      have hnotin : id ∉ childUuids rest := by
        intro hin
        exact hdisj id hmem (childUuids_sub_treeIdsL rest id hin)
      have hru := detach_root_uuid c id c' sub hd
      simp [childUuids, hru, List.erase_cons, if_neg (by simpa using hc), hc,
        List.erase_of_not_mem hnotin]
    · have hmem : id ∈ treeIdsL rest := detachL_mem rest id rest' sub hdl
      have hnd2 : (treeIdsL rest).Nodup :=
        (List.nodup_append.mp (by simpa [treeIdsL] using hnd)).2.1
      have := detachL_childUuids rest id rest' sub hnd2 hdl
      simp [childUuids, this, List.erase_cons, hc]

/-- How a surviving node is affected by a `detach`: identity, name and type are
kept, the detached uuid disappears from its child list, its subtree only
shrinks, and it is untouched when the detached subtree was not inside it. -/
def NodeEvolve (id : String) (nq nq' : Obj) : Prop :=
  nq'.uuid = nq.uuid ∧ nq'.name = nq.name ∧ nq'.typ = nq.typ ∧
  nq'.childIds = nq.childIds.erase id ∧
  (∀ x ∈ treeIds nq', x ∈ treeIds nq) ∧
  (id ∉ treeIds nq → nq' = nq)

theorem nodeEvolve_refl (id : String) (nq : Obj) (h : id ∉ nq.childIds) :
    NodeEvolve id nq nq :=
  ⟨rfl, rfl, rfl, (List.erase_of_not_mem h).symm, fun _ hx => hx, fun _ => rfl⟩

theorem childUuids_append : ∀ (cs ds : List Obj),
    childUuids (cs ++ ds) = childUuids cs ++ childUuids ds
  | [], ds => by simp [childUuids]
  | c :: rest, ds => by simp [childUuids, childUuids_append rest ds]

theorem findInChildren_append : ∀ (cs ds : List Obj) (q : String),
    findInChildren (cs ++ ds) q =
      match findInChildren cs q with
      | some r => some r
      | none => findInChildren ds q
  | [], ds, q => by simp [findInChildren]
  | c :: rest, ds, q => by
    simp only [List.cons_append, findInChildren]
    cases findNodeByUuid c q with
    | some r => rfl
    | none => exact findInChildren_append rest ds q

theorem insertUnderOpt_mem (t : Obj) (g : String) (c : Obj) (t2 : Obj)
    (h : insertUnderOpt t g c = some t2) : g ∈ treeIds t := by
  by_contra hmem
  rw [(insertUnderOpt_eq_none t g c).mpr hmem] at h
  cases h

theorem insertUnderL_mem (cs : List Obj) (g : String) (c : Obj) (cs2 : List Obj)
    (h : insertUnderL cs g c = some cs2) : g ∈ treeIdsL cs := by
  by_contra hmem
  rw [(insertUnderL_eq_none cs g c).mpr hmem] at h
  cases h

theorem insertUnderOpt_root_uuid (t : Obj) (g : String) (c : Obj) (t2 : Obj)
    (h : insertUnderOpt t g c = some t2) : t2.uuid = t.uuid := by
  cases t with
  | node u n ty m om gm p cs =>
    rcases insertUnderOpt_shape u n ty m om gm p cs g c t2 h with ⟨_, rfl⟩ | ⟨_, cs2, _, rfl⟩ <;>
      rfl

theorem insertUnderL_childUuids : ∀ (cs : List Obj) (g : String) (c : Obj) (cs2 : List Obj),
    insertUnderL cs g c = some cs2 → childUuids cs2 = childUuids cs
  | [], g, c, cs2 => by simp [insertUnderL]
  | x :: rest, g, c, cs2 => by
    intro h
    rcases insertUnderL_cases x rest g c cs2 h with ⟨x', hx, rfl⟩ | ⟨_, rest', hl, rfl⟩
    · simp [childUuids, insertUnderOpt_root_uuid x g c x' hx]
    · simp [childUuids, insertUnderL_childUuids rest g c rest' hl]

mutual

theorem detach_evolve : ∀ (t : Obj) (id : String) (t' sub : Obj) (q : String),
    (treeIds t).Nodup → detach t id = some (t', sub) → q ∈ treeIds t' →
    ∃ nq nq', findNodeByUuid t q = some nq ∧ findNodeByUuid t' q = some nq' ∧
      NodeEvolve id nq nq'
  | .node u n ty m om g p cs, id, t', sub, q => by
    intro hnd hdet hq
    obtain ⟨cs', hd, rfl⟩ := detach_shape u n ty m om g p cs id t' sub hdet
    have hndcs : (treeIdsL cs).Nodup := by
      simp only [treeIds] at hnd
      exact hnd.of_cons
    by_cases hu : u = q
    · subst hu
      refine ⟨Obj.node u n ty m om g p cs, Obj.node u n ty m om g p cs',
        by simp [findNodeByUuid], by simp [findNodeByUuid], rfl, rfl, rfl, ?_, ?_, ?_⟩
      · show childUuids cs' = (childUuids cs).erase id
        exact detachL_childUuids cs id cs' sub hndcs hd
      · intro x hx
        exact ((detach_perm _ id _ sub hdet).mem_iff).mpr (List.mem_append_left _ hx)
      · intro hid
        exact absurd (detach_mem _ id _ sub hdet) hid
    · have hq' : q ∈ treeIdsL cs' := by
        simp only [treeIds, List.mem_cons] at hq
        rcases hq with h | h
        · exact absurd h.symm hu
        · exact h
      obtain ⟨nq, nq', h1, h2, hev⟩ := detachL_evolve cs id cs' sub q hndcs hd hq'
      exact ⟨nq, nq', by simp [findNodeByUuid, hu, h1], by simp [findNodeByUuid, hu, h2], hev⟩

theorem detachL_evolve : ∀ (cs : List Obj) (id : String) (cs' : List Obj) (sub : Obj)
    (q : String), (treeIdsL cs).Nodup → detachL cs id = some (cs', sub) → q ∈ treeIdsL cs' →
    ∃ nq nq', findInChildren cs q = some nq ∧ findInChildren cs' q = some nq' ∧
      NodeEvolve id nq nq'
  | [], id, cs', sub, q => by simp [detachL]
  | c :: rest, id, cs', sub, q => by
    intro hnd h hq
    have hnds := List.nodup_append.mp (by simpa [treeIdsL] using hnd)
    rcases detachL_cases c rest id cs' sub h with ⟨hc, h1, h2⟩ | ⟨hc, c', hd, h1⟩ |
      ⟨hc, hdn, rest', hdl, h1⟩
    · rw [h1] at hq ⊢
      have hqc : q ∉ treeIds c := fun hin => hnds.2.2 hin hq
      obtain ⟨nq, hfind⟩ := findInChildren_some_of_mem _ q hq
      have hnone : findNodeByUuid c q = none := (findNodeByUuid_eq_none c q).mpr hqc
      refine ⟨nq, nq, by simp [findInChildren, hnone, hfind], hfind,
        nodeEvolve_refl id nq ?_⟩
      intro hin
      exact hnds.2.2 (hc ▸ uuid_mem_treeIds c)
        (findInChildren_sub_ids _ q nq hfind id (childIds_sub_treeIds nq id hin))
    · rw [h1] at hq ⊢
      by_cases hqc' : q ∈ treeIds c'
      · obtain ⟨nq, nq', hf1, hf2, hev⟩ := detach_evolve c id c' sub q hnds.1 hd hqc'
        exact ⟨nq, nq', by simp [findInChildren, hf1], by simp [findInChildren, hf2], hev⟩
      · have hqrest : q ∈ treeIdsL rest := by
          rcases (by simpa [treeIdsL] using hq : q ∈ treeIds c' ∨ q ∈ treeIdsL rest) with hh | hh
          · exact absurd hh hqc'
          · exact hh
        have hqc : q ∉ treeIds c := fun hin => hnds.2.2 hin hqrest
        have hnonec : findNodeByUuid c q = none := (findNodeByUuid_eq_none c q).mpr hqc
        have hnonec' : findNodeByUuid c' q = none := (findNodeByUuid_eq_none c' q).mpr hqc'
        obtain ⟨nq, hfind⟩ := findInChildren_some_of_mem rest q hqrest
        refine ⟨nq, nq, by simp [findInChildren, hnonec, hfind],
          by simp [findInChildren, hnonec', hfind], nodeEvolve_refl id nq ?_⟩
        intro hin
        exact hnds.2.2 (detach_mem c id c' sub hd)
          (findInChildren_sub_ids rest q nq hfind id (childIds_sub_treeIds nq id hin))
    · rw [h1] at hq ⊢
      by_cases hqc : q ∈ treeIds c
      · obtain ⟨nq, hfind⟩ := findNodeByUuid_some_of_mem c q hqc
        refine ⟨nq, nq, by simp [findInChildren, hfind], by simp [findInChildren, hfind],
          nodeEvolve_refl id nq ?_⟩
        intro hin
        exact hnds.2.2 (findNodeByUuid_sub_ids c q nq hfind id (childIds_sub_treeIds nq id hin))
          (detachL_mem rest id rest' sub hdl)
      · have hqrest' : q ∈ treeIdsL rest' := by
          rcases (by simpa [treeIdsL] using hq : q ∈ treeIds c ∨ q ∈ treeIdsL rest') with hh | hh
          · exact absurd hh hqc
          · exact hh
        obtain ⟨nq, nq', hf1, hf2, hev⟩ := detachL_evolve rest id rest' sub q hnds.2.1 hdl hqrest'
        have hnonec : findNodeByUuid c q = none := (findNodeByUuid_eq_none c q).mpr hqc
        exact ⟨nq, nq', by simp [findInChildren, hnonec, hf1],
          by simp [findInChildren, hnonec, hf2], hev⟩

end

/-- How a node is affected by an `insertUnder` of subtree `c` below uuid `g`:
identity, name and type are kept, the child list gains `c`'s uuid exactly at
the target node, subtrees only grow by `c`'s ids, and a node whose subtree
does not contain the target is untouched. -/
def InsertEvolve (g : String) (c : Obj) (nq nq' : Obj) : Prop :=
  nq'.uuid = nq.uuid ∧ nq'.name = nq.name ∧ nq'.typ = nq.typ ∧
  nq'.childIds = nq.childIds ++ (if nq.uuid = g then [c.uuid] else []) ∧
  (∀ x ∈ treeIds nq', x ∈ treeIds nq ∨ x ∈ treeIds c) ∧
  (g ∉ treeIds nq → nq' = nq)

theorem insertEvolve_refl (g : String) (c : Obj) (nq : Obj) (h : nq.uuid ≠ g) :
    InsertEvolve g c nq nq :=
  ⟨rfl, rfl, rfl, by simp [h], fun x hx => Or.inl hx, fun _ => rfl⟩

mutual

theorem insert_evolve : ∀ (t : Obj) (g : String) (c : Obj) (t2 : Obj) (q : String),
    (treeIds t).Nodup → q ∉ treeIds c → insertUnderOpt t g c = some t2 → q ∈ treeIds t →
    ∃ nq nq', findNodeByUuid t q = some nq ∧ findNodeByUuid t2 q = some nq' ∧
      InsertEvolve g c nq nq'
  | .node u n ty m om gm p cs, g, c, t2, q => by
    intro hnd hqc hins hq
    rcases insertUnderOpt_shape u n ty m om gm p cs g c t2 hins with ⟨hu, h1⟩ |
      ⟨hu, cs2, hl, h1⟩
    · subst hu
      rw [h1]
      by_cases huq : u = q
      · subst huq
        refine ⟨Obj.node u n ty m om gm p cs, Obj.node u n ty m om gm p (cs ++ [c]),
          by simp [findNodeByUuid], by simp [findNodeByUuid], rfl, rfl, rfl, ?_, ?_, ?_⟩
        · show childUuids (cs ++ [c]) = childUuids cs ++ (if u = u then [c.uuid] else [])
          simp [childUuids_append, childUuids]
        · intro x hx
          rcases (by simpa [treeIds, treeIdsL_append, treeIdsL] using hx :
            x = u ∨ x ∈ treeIdsL cs ∨ x ∈ treeIds c) with hh | hh | hh
          · exact Or.inl (by simp [treeIds, hh])
          · exact Or.inl (by simp [treeIds, hh])
          · exact Or.inr hh
        · intro hgmem
          exact absurd (by simp [treeIds] : u ∈ treeIds (Obj.node u n ty m om gm p cs)) hgmem
      · have hq' : q ∈ treeIdsL cs := by
          rcases (by simpa [treeIds] using hq : q = u ∨ q ∈ treeIdsL cs) with hh | hh
          · exact absurd hh.symm huq
          · exact hh
        obtain ⟨nq, hfind⟩ := findInChildren_some_of_mem cs q hq'
        have happ : findInChildren (cs ++ [c]) q = some nq := by
          rw [findInChildren_append]
          simp [hfind]
        refine ⟨nq, nq, by simp [findNodeByUuid, huq, hfind],
          by simp [findNodeByUuid, huq, happ], insertEvolve_refl u c nq ?_⟩
        intro he
        have hqu : q = u := (findInChildren_uuid cs q nq hfind).symm.trans he
        exact huq hqu.symm
    · rw [h1]
      by_cases huq : u = q
      · subst huq
        refine ⟨Obj.node u n ty m om gm p cs, Obj.node u n ty m om gm p cs2,
          by simp [findNodeByUuid], by simp [findNodeByUuid], rfl, rfl, rfl, ?_, ?_, ?_⟩
        · show childUuids cs2 = childUuids cs ++ (if u = g then [c.uuid] else [])
          simp [insertUnderL_childUuids cs g c cs2 hl, hu]
        · intro x hx
          have hperm := (insertUnderOpt_perm _ g c _ hins).mem_iff (a := x)
          rw [h1] at hperm
          rcases List.mem_append.mp (hperm.mp hx) with hh | hh
          · exact Or.inl hh
          · exact Or.inr hh
        · intro hgmem
          exact absurd (by
            have := insertUnderL_mem cs g c cs2 hl
            simp [treeIds, this] : g ∈ treeIds (Obj.node u n ty m om gm p cs)) hgmem
      · have hq' : q ∈ treeIdsL cs := by
          rcases (by simpa [treeIds] using hq : q = u ∨ q ∈ treeIdsL cs) with hh | hh
          · exact absurd hh.symm huq
          · exact hh
        have hndcs : (treeIdsL cs).Nodup := by
          simp only [treeIds] at hnd
          exact hnd.of_cons
        obtain ⟨nq, nq', hf1, hf2, hev⟩ := insertL_evolve cs g c cs2 q hndcs hqc hl hq'
        exact ⟨nq, nq', by simp [findNodeByUuid, huq, hf1],
          by simp [findNodeByUuid, huq, hf2], hev⟩

theorem insertL_evolve : ∀ (cs : List Obj) (g : String) (c : Obj) (cs2 : List Obj) (q : String),
    (treeIdsL cs).Nodup → q ∉ treeIds c → insertUnderL cs g c = some cs2 → q ∈ treeIdsL cs →
    ∃ nq nq', findInChildren cs q = some nq ∧ findInChildren cs2 q = some nq' ∧
      InsertEvolve g c nq nq'
  | [], g, c, cs2, q => by simp [treeIdsL]
  | x :: rest, g, c, cs2, q => by
    intro hnd hqc h hq
    have hnds := List.nodup_append.mp (by simpa [treeIdsL] using hnd)
    rcases insertUnderL_cases x rest g c cs2 h with ⟨x', hx, h1⟩ | ⟨hxn, rest', hl, h1⟩
    · rw [h1]
      by_cases hqx : q ∈ treeIds x
      · obtain ⟨nq, nq', hf1, hf2, hev⟩ := insert_evolve x g c x' q hnds.1 hqc hx hqx
        exact ⟨nq, nq', by simp [findInChildren, hf1], by simp [findInChildren, hf2], hev⟩
      · have hqrest : q ∈ treeIdsL rest := by
          rcases (by simpa [treeIdsL] using hq : q ∈ treeIds x ∨ q ∈ treeIdsL rest) with hh | hh
          · exact absurd hh hqx
          · exact hh
        have hqx' : q ∉ treeIds x' := by
          intro hin
          rcases List.mem_append.mp (((insertUnderOpt_perm x g c x' hx).mem_iff).mp hin) with
            hh | hh
          · exact hqx hh
          · exact hqc hh
        have hn1 : findNodeByUuid x q = none := (findNodeByUuid_eq_none x q).mpr hqx
        have hn2 : findNodeByUuid x' q = none := (findNodeByUuid_eq_none x' q).mpr hqx'
        obtain ⟨nq, hfind⟩ := findInChildren_some_of_mem rest q hqrest
        refine ⟨nq, nq, by simp [findInChildren, hn1, hfind],
          by simp [findInChildren, hn2, hfind], insertEvolve_refl g c nq ?_⟩
        intro he
        have : g ∈ treeIds x := insertUnderOpt_mem x g c x' hx
        rw [← he] at this
        exact hqx (findInChildren_uuid rest q nq hfind ▸ this)
    · rw [h1]
      by_cases hqx : q ∈ treeIds x
      · obtain ⟨nq, hfind⟩ := findNodeByUuid_some_of_mem x q hqx
        refine ⟨nq, nq, by simp [findInChildren, hfind], by simp [findInChildren, hfind],
          insertEvolve_refl g c nq ?_⟩
        intro he
        have hg : g ∈ treeIdsL rest := insertUnderL_mem rest g c rest' hl
        rw [← he] at hg
        exact hnds.2.2 (findNodeByUuid_uuid x q nq hfind ▸ hqx)
          (by simpa [findNodeByUuid_uuid x q nq hfind] using hg)
      · have hqrest : q ∈ treeIdsL rest := by
          rcases (by simpa [treeIdsL] using hq : q ∈ treeIds x ∨ q ∈ treeIdsL rest) with hh | hh
          · exact absurd hh hqx
          · exact hh
        obtain ⟨nq, nq', hf1, hf2, hev⟩ := insertL_evolve rest g c rest' q hnds.2.1 hqc hl hqrest
        have hn1 : findNodeByUuid x q = none := (findNodeByUuid_eq_none x q).mpr hqx
        exact ⟨nq, nq', by simp [findInChildren, hn1, hf1],
          by simp [findInChildren, hn1, hf2], hev⟩

end

mutual

theorem detach_subfind : ∀ (t : Obj) (id : String) (t' sub : Obj) (q : String),
    (treeIds t).Nodup → detach t id = some (t', sub) → q ∈ treeIds sub →
    findNodeByUuid t q = findNodeByUuid sub q
  | .node u n ty m om g p cs, id, t', sub, q => by
    intro hnd hdet hq
    obtain ⟨cs', hd, rfl⟩ := detach_shape u n ty m om g p cs id t' sub hdet
    have hndcs : (treeIdsL cs).Nodup := by
      simp only [treeIds] at hnd
      exact hnd.of_cons
    have hqcs : q ∈ treeIdsL cs :=
      ((detachL_perm cs id cs' sub hd).mem_iff).mpr (List.mem_append_right _ hq)
    have hqu : u ≠ q := by
      intro he
      subst he
      simp only [treeIds] at hnd
      exact (List.nodup_cons.mp hnd).1 hqcs
    rw [show findNodeByUuid (Obj.node u n ty m om g p cs) q = findInChildren cs q by
      simp [findNodeByUuid, hqu]]
    exact detachL_subfind cs id cs' sub q hndcs hd hq

theorem detachL_subfind : ∀ (cs : List Obj) (id : String) (cs' : List Obj) (sub : Obj)
    (q : String), (treeIdsL cs).Nodup → detachL cs id = some (cs', sub) → q ∈ treeIds sub →
    findInChildren cs q = findNodeByUuid sub q
  | [], id, cs', sub, q => by simp [detachL]
  | c :: rest, id, cs', sub, q => by
    intro hnd h hq
    have hnds := List.nodup_append.mp (by simpa [treeIdsL] using hnd)
    rcases detachL_cases c rest id cs' sub h with ⟨hc, h1, h2⟩ | ⟨hc, c', hd, h1⟩ |
      ⟨hc, hdn, rest', hdl, h1⟩
    · subst h2
      obtain ⟨r, hr⟩ := findNodeByUuid_some_of_mem sub q hq
      simp [findInChildren, hr]
    · have hqc : q ∈ treeIds c :=
        ((detach_perm c id c' sub hd).mem_iff).mpr (List.mem_append_right _ hq)
      obtain ⟨r, hr⟩ := findNodeByUuid_some_of_mem c q hqc
      rw [show findInChildren (c :: rest) q = findNodeByUuid c q by simp [findInChildren, hr]]
      exact detach_subfind c id c' sub q hnds.1 hd hq
    · have hqrest : q ∈ treeIdsL rest :=
        ((detachL_perm rest id rest' sub hdl).mem_iff).mpr (List.mem_append_right _ hq)
      have hqc : q ∉ treeIds c := fun hin => hnds.2.2 hin hqrest
      have hn : findNodeByUuid c q = none := (findNodeByUuid_eq_none c q).mpr hqc
      rw [show findInChildren (c :: rest) q = findInChildren rest q by simp [findInChildren, hn]]
      exact detachL_subfind rest id rest' sub q hnds.2.1 hdl hq

end

mutual

theorem insert_find_in_c : ∀ (t : Obj) (g : String) (c : Obj) (t2 : Obj) (q : String),
    q ∉ treeIds t → q ∈ treeIds c → insertUnderOpt t g c = some t2 →
    findNodeByUuid t2 q = findNodeByUuid c q
  | .node u n ty m om gm p cs, g, c, t2, q => by
    intro hqt hqc hins
    have hqu : u ≠ q := by
      intro he
      exact hqt (by simp [treeIds, he])
    have hqcs : q ∉ treeIdsL cs := by
      intro hin
      exact hqt (by simp [treeIds, hin])
    rcases insertUnderOpt_shape u n ty m om gm p cs g c t2 hins with ⟨hu, h1⟩ |
      ⟨hu, cs2, hl, h1⟩
    · subst h1
      rw [show findNodeByUuid (Obj.node u n ty m om gm p (cs ++ [c])) q =
        findInChildren (cs ++ [c]) q by simp [findNodeByUuid, hqu]]
      rw [findInChildren_append]
      rw [(findInChildren_eq_none cs q).mpr hqcs]
      obtain ⟨r, hr⟩ := findNodeByUuid_some_of_mem c q hqc
      simp [findInChildren, hr]
    · subst h1
      rw [show findNodeByUuid (Obj.node u n ty m om gm p cs2) q = findInChildren cs2 q by
        simp [findNodeByUuid, hqu]]
      exact insertL_find_in_c cs g c cs2 q hqcs hqc hl

theorem insertL_find_in_c : ∀ (cs : List Obj) (g : String) (c : Obj) (cs2 : List Obj)
    (q : String), q ∉ treeIdsL cs → q ∈ treeIds c → insertUnderL cs g c = some cs2 →
    findInChildren cs2 q = findNodeByUuid c q
  | [], g, c, cs2, q => by simp [insertUnderL]
  | x :: rest, g, c, cs2, q => by
    intro hqcs hqc h
    have hqx : q ∉ treeIds x := fun hin => hqcs (by simp [treeIdsL, hin])
    have hqrest : q ∉ treeIdsL rest := fun hin => hqcs (by simp [treeIdsL, hin])
    rcases insertUnderL_cases x rest g c cs2 h with ⟨x', hx, h1⟩ | ⟨hxn, rest', hl, h1⟩
    · subst h1
      have := insert_find_in_c x g c x' q hqx hqc hx
      obtain ⟨r, hr⟩ := findNodeByUuid_some_of_mem c q hqc
      rw [hr] at this
      simp [findInChildren, this, hr]
    · subst h1
      have hn : findNodeByUuid x q = none := (findNodeByUuid_eq_none x q).mpr hqx
      rw [show findInChildren (x :: rest') q = findInChildren rest' q by
        simp [findInChildren, hn]]
      exact insertL_find_in_c rest g c rest' q hqrest hqc hl

end

/-! ## Claims -/

/-- C9: with `multi = false`, clicking an id that is in the selection — even
together with other ids — clears the whole selection to `[]` rather than
replacing it with `[id]`; clicking an id that is absent makes the selection
exactly `[id]`. -/
theorem c9_toggle_single_select (s : AppState) (id : String) :
    (id ∈ s.selectedNodeIds → (toggleNodeSelection id false s).selectedNodeIds = []) ∧
    (id ∉ s.selectedNodeIds → (toggleNodeSelection id false s).selectedNodeIds = [id]) := by
  constructor <;> intro h <;> simp [toggleNodeSelection, h]

theorem c9_toggle_single_select_witness :
    (toggleNodeSelection "a" false ⟨none, [], ["x", "a"], false, [], []⟩).selectedNodeIds = []
    ∧ (toggleNodeSelection "a" false ⟨none, [], ["x"], false, [], []⟩).selectedNodeIds = ["a"]
    := by
  refine ⟨(c9_toggle_single_select ⟨none, [], ["x", "a"], false, [], []⟩ "a").1 ?_,
    (c9_toggle_single_select ⟨none, [], ["x"], false, [], []⟩ "a").2 ?_⟩ <;> decide

/-- C7 counterexample: `setSelectedNodes` performs no deduplication — passing
`["a", "a"]` leaves a duplicate id in the selection, contradicting the claim
that the stored selection never contains duplicates. -/
theorem c7_setAll_counterexample :
    (setSelectedNodes ["a", "a"] ⟨none, [], [], false, [], []⟩).selectedNodeIds = ["a", "a"] ∧
    ¬ ((setSelectedNodes ["a", "a"] ⟨none, [], [], false, [], []⟩).selectedNodeIds.Nodup) :=
  ⟨rfl, by decide⟩

/-- C7 (amended): `setAll(ids)` replaces the selection with exactly the input
list, order and duplicates preserved verbatim; no deduplication happens. -/
theorem c7_setAll_replaces_verbatim :
    ∀ (ids : List String) (s : AppState), (setSelectedNodes ids s).selectedNodeIds = ids :=
  fun _ _ => rfl

/-- C10: `undo()` and `redo()` touch only the scene reference, the mirror and
the history/future stacks; the selection (and the bulk-rename flag) are left
unchanged, whatever the state — in particular even when the restored tree no
longer contains selected ids. -/
theorem c10_undo_redo_frame : ∀ s : AppState,
    (undo s).selectedNodeIds = s.selectedNodeIds ∧
    (redo s).selectedNodeIds = s.selectedNodeIds ∧
    (undo s).hasRenamed = s.hasRenamed ∧
    (redo s).hasRenamed = s.hasRenamed := by
  intro s
  refine ⟨?_, ?_, ?_, ?_⟩
  · unfold undo
    split <;> rfl
  · unfold redo
    split <;> rfl
  · unfold undo
    split <;> rfl
  · unfold redo
    split <;> rfl

/-- C3: when both ids resolve, to distinct objects, and the parent's node is a
descendant of the child's node (the child's first-match DFS path is a proper
prefix of the parent's), `reparentNode` is rejected by the upward cycle walk
and the whole state — in particular the tree — is unchanged. -/
theorem c3_reparent_cycle_noop (s : AppState) (root : Obj) (childId parentId : String)
    (cp pp : List Nat) (hs : s.scene = some root)
    (hc : pathTo root childId = some cp) (hp : pathTo root parentId = some pp)
    (hdesc : cp <+: pp) (hproper : cp ≠ pp) :
    reparentNode childId parentId s = s := by
  simp only [reparentNode, hs, hc, hp]
  rw [if_neg hproper, if_pos ((List.isPrefixOf_iff_prefix).mpr hdesc)]

theorem renameNode_frame (id nm : String) (s : AppState) :
    (renameNode id nm s).history = s.history ∧ (renameNode id nm s).future = s.future ∧
    ((renameNode id nm s).scene.isSome ↔ s.scene.isSome) := by
  unfold renameNode
  split
  · exact ⟨rfl, rfl, Iff.rfl⟩
  next root hroot =>
    split
    · exact ⟨rfl, rfl, by simp [hroot]⟩
    · exact ⟨rfl, rfl, Iff.rfl⟩

theorem groupNodes_frame (ids : List String) (fid : String) (s : AppState) :
    (groupNodes ids fid s).history = s.history ∧ (groupNodes ids fid s).future = s.future ∧
    ((groupNodes ids fid s).scene.isSome ↔ s.scene.isSome) := by
  unfold groupNodes
  split
  · exact ⟨rfl, rfl, Iff.rfl⟩
  next root hroot =>
    split
    · exact ⟨rfl, rfl, Iff.rfl⟩
    dsimp only
    split
    · exact ⟨rfl, rfl, Iff.rfl⟩
    split
    · exact ⟨rfl, rfl, Iff.rfl⟩
    next firstId hfirst =>
      split
      · exact ⟨rfl, rfl, Iff.rfl⟩
      next cp hcp => exact ⟨rfl, rfl, by simp [hroot]⟩

theorem reparentNode_frame (cid pid : String) (s : AppState) :
    (reparentNode cid pid s).history = s.history ∧ (reparentNode cid pid s).future = s.future ∧
    ((reparentNode cid pid s).scene.isSome ↔ s.scene.isSome) := by
  unfold reparentNode
  split
  · exact ⟨rfl, rfl, Iff.rfl⟩
  next root hroot =>
    split
    · split
      · exact ⟨rfl, rfl, Iff.rfl⟩
      split
      · exact ⟨rfl, rfl, Iff.rfl⟩
      split
      · exact ⟨rfl, rfl, Iff.rfl⟩
      next child hchild => exact ⟨rfl, rfl, by simp [hroot]⟩
    · exact ⟨rfl, rfl, Iff.rfl⟩

theorem mergeNodes_frame (fid fn : String) (ok : Bool) (s : AppState) :
    (mergeNodes fid fn ok s).history = s.history ∧
    (mergeNodes fid fn ok s).future = s.future ∧
    ((mergeNodes fid fn ok s).scene.isSome ↔ s.scene.isSome) := by
  unfold mergeNodes
  split
  · exact ⟨rfl, rfl, Iff.rfl⟩
  next root hroot =>
    split
    · exact ⟨rfl, rfl, Iff.rfl⟩
    dsimp only
    split
    · exact ⟨rfl, rfl, Iff.rfl⟩
    split
    · exact ⟨rfl, rfl, Iff.rfl⟩
    next firstMesh hfirst =>
      split
      · exact ⟨rfl, rfl, by simp [hroot]⟩
      · exact ⟨rfl, rfl, Iff.rfl⟩

theorem updateNodeNames_frame (ups : List (String × String)) (s : AppState) :
    (updateNodeNames ups s).history = s.history ∧ (updateNodeNames ups s).future = s.future ∧
    ((updateNodeNames ups s).scene.isSome ↔ s.scene.isSome) := by
  unfold updateNodeNames
  split
  · exact ⟨rfl, rfl, Iff.rfl⟩
  next root hroot =>
    dsimp only
    split
    · exact ⟨rfl, rfl, by simp [hroot]⟩
    · exact ⟨rfl, rfl, Iff.rfl⟩

theorem applyMutation_frame (m : Mutation) (s : AppState) :
    (applyMutation m s).history = s.history ∧ (applyMutation m s).future = s.future ∧
    ((applyMutation m s).scene.isSome ↔ s.scene.isSome) := by
  cases m with
  | rename id nm => exact renameNode_frame id nm s
  | group ids fid => exact groupNodes_frame ids fid s
  | reparent c p => exact reparentNode_frame c p s
  | merge fid fn ok => exact mergeNodes_frame fid fn ok s
  | updateNames ups => exact updateNodeNames_frame ups s

theorem pushLast (l : List Obj) (x : Obj) :
    (if (l ++ [x]).length > 20 then (l ++ [x]).tail else (l ++ [x])).getLast? = some x := by
  split
  next hlen =>
    cases l with
    | nil => simp at hlen
    | cons a tl => simp [List.getLast?_concat]
  next => simp [List.getLast?_concat]

mutual

theorem structEq_refl : ∀ t : Obj, structEq t t = true
  | .node u n ty m om g p cs => by
    simp [structEq, structEqL_refl cs]

theorem structEqL_refl : ∀ cs : List Obj, structEqL cs cs = true
  | [] => rfl
  | c :: rest => by simp [structEqL, structEq_refl c, structEqL_refl rest]

end

mutual

theorem structEq_revert : ∀ t : Obj, structEq (revertHighlights t) t = true
  | .node u n ty m om g p cs => by
    simp [revertHighlights, structEq, structEqL_revert cs]

theorem structEqL_revert : ∀ cs : List Obj, structEqL (revertHighlightsL cs) cs = true
  | [] => rfl
  | c :: rest => by
    simp [revertHighlightsL, structEqL, structEq_revert c, structEqL_revert rest]

end

/-- C1: for any live tree, `snapshot(); mutate; undo()` restores a scene
structurally equal to the pre-mutation tree, for every mutation operation
(rename, group, reparent, merge, bulk rename); and from any state reached by
an (enabled) `undo()`, `redo()` restores a scene structurally equal to the
pre-undo tree. -/
theorem c1_undo_redo_round_trip (s : AppState) (t : Obj) (m : Mutation)
    (hs : s.scene = some t) :
    sceneStructEq ((undo (applyMutation m (snapshot s))).scene) (some t) = true ∧
    (s.history ≠ [] → sceneStructEq ((redo (undo s)).scene) (some t) = true) := by
  constructor
  · have hsnap_scene : (snapshot s).scene = some t := by simp [snapshot, hs]
    have hsnap_hist : (snapshot s).history.getLast? = some (revertHighlights t) := by
      simp only [snapshot, hs]
      exact pushLast s.history (revertHighlights t)
    obtain ⟨hh, hf, hiff⟩ := applyMutation_frame m (snapshot s)
    have hsome : (applyMutation m (snapshot s)).scene.isSome := by
      rw [hiff, hsnap_scene]
      rfl
    obtain ⟨u, hu⟩ : ∃ u, (applyMutation m (snapshot s)).scene = some u := by
      cases hcase : (applyMutation m (snapshot s)).scene with
      | some u => exact ⟨u, rfl⟩
      | none => rw [hcase] at hsome; cases hsome
    have hhist : (applyMutation m (snapshot s)).history.getLast? =
        some (revertHighlights t) := by
      rw [hh]
      exact hsnap_hist
    have hrestore : (undo (applyMutation m (snapshot s))).scene =
        some (revertHighlights t) := by
      simp only [undo, hu, hhist]
    rw [hrestore]
    show structEq (revertHighlights t) t = true
    exact structEq_revert t
  · intro hne
    obtain ⟨prev, hprev⟩ : ∃ prev, s.history.getLast? = some prev := by
      cases hcase : s.history.getLast? with
      | some prev => exact ⟨prev, rfl⟩
      | none => exact absurd (List.getLast?_eq_none_iff.mp hcase) hne
    have hundo : (redo (undo s)).scene = some t := by
      simp only [undo, hs, hprev, redo]
    rw [hundo]
    show structEq t t = true
    exact structEq_refl t

def c1T : Obj := .node "a" "A" "Mesh" 1 none [3] 0 []

def c1S : AppState := ⟨some c1T, mirrorOf c1T, [], false, [c1T], []⟩

theorem c1_undo_redo_round_trip_witness :
    sceneStructEq ((undo (applyMutation (Mutation.rename "a" "B") (snapshot c1S))).scene)
      (some c1T) = true ∧
    sceneStructEq ((redo (undo c1S)).scene) (some c1T) = true :=
  ⟨(c1_undo_redo_round_trip c1S c1T (Mutation.rename "a" "B") rfl).1,
   (c1_undo_redo_round_trip c1S c1T (Mutation.rename "a" "B") rfl).2
     (List.cons_ne_nil c1T [])⟩

def c3Root : Obj :=
  .node "r" "root" "Group" 0 none [] 0
    [.node "x" "X" "Group" 0 none [] 0 [.node "y" "Y" "Mesh" 0 none [] 0 []]]

def c3S : AppState := ⟨some c3Root, mirrorOf c3Root, [], false, [], []⟩

theorem c3_reparent_cycle_noop_witness : reparentNode "x" "y" c3S = c3S :=
  c3_reparent_cycle_noop c3S c3Root "x" "y" [0] [0, 0] rfl rfl rfl ⟨[0], rfl⟩ (by decide)

/-! ## C2: the bounded history scenario -/

/-- The concrete scene used by the history-bound scenario: a root holding one
mesh whose display name records how many mutations have happened. -/
def c2Named (nm : String) : Obj :=
  .node "r" "R" "Group" 0 none [] 0 [.node "a" nm "Mesh" 1 none [] 0 []]

def c2T : Obj := c2Named "a0"

/-- `k` sequential `snapshot(); rename` cycles from the initial scene. -/
def c2Cycle : Nat → AppState
  | 0 => ⟨some c2T, mirrorOf c2T, [], false, [], []⟩
  | k + 1 => applyMutation (.rename "a" ("n" ++ toString (k + 1))) (snapshot (c2Cycle k))

def c2Run : AppState := c2Cycle 25

/-- The pre-mutation scenes of the first five cycles — the oldest five states. -/
def c2OldFive : List Obj :=
  [c2Named "a0", c2Named "n1", c2Named "n2", c2Named "n3", c2Named "n4"]

theorem undoIter_scene (k : Nat) (s : AppState) :
    (undoIter k s).scene = s.scene ∨ ∃ x ∈ s.history, (undoIter k s).scene = some x := by
  induction k generalizing s with
  | zero => exact Or.inl rfl
  | succ k ih =>
    have hstep : undoIter (k + 1) s = undoIter k (undo s) := rfl
    rcases ih (undo s) with h | ⟨x, hx, h⟩
    · cases hs : s.scene with
      | none =>
        left
        rw [hstep, h]
        simp [undo, hs]
      | some t =>
        cases hl : s.history.getLast? with
        | none =>
          left
          rw [hstep, h]
          simp [undo, hs, hl]
        | some prev =>
          right
          have hprevmem : prev ∈ s.history := by
            obtain ⟨hne, heq⟩ :=
              List.mem_getLast?_eq_getLast (by simp [hl] : prev ∈ s.history.getLast?)
            rw [heq]
            exact List.getLast_mem hne
          refine ⟨prev, hprevmem, ?_⟩
          rw [hstep, h]
          simp [undo, hs, hl]
    · right
      refine ⟨x, ?_, by rw [hstep]; exact h⟩
      revert hx
      unfold undo
      split
      · intro hx
        exact (List.dropLast_sublist _).subset hx
      · intro hx
        exact hx

/-- C2: `snapshot()` appends the serialized tree to `history`, discarding the
oldest entry whenever the stack would exceed depth 20; after 25 sequential
snapshot+rename cycles the history holds exactly 20 entries, and no sequence
of `undo()` calls can reach any of the five oldest states. -/
theorem c2_history_bound :
    (∀ (s : AppState) (t : Obj), s.scene = some t →
      (snapshot s).history =
        (if s.history.length ≥ 20 then s.history.tail else s.history) ++
          [revertHighlights t]) ∧
    c2Run.history.length = 20 ∧
    (∀ k : Nat, ∀ old ∈ c2OldFive,
      sceneStructEq ((undoIter k c2Run).scene) (some old) = false) := by
  refine ⟨?_, by decide, ?_⟩
  · intro s t hs
    simp only [snapshot, hs]
    by_cases hlen : s.history.length ≥ 20
    · rw [if_pos (by simp; omega), if_pos hlen]
      cases hh : s.history with
      | nil => rw [hh] at hlen; simp at hlen
      | cons a tl => simp
    · rw [if_neg (by simp; omega), if_neg hlen]
  · intro k old hold
    rcases undoIter_scene k c2Run with h | ⟨x, hx, h⟩
    · rw [h]
      revert old
      decide
    · rw [h]
      clear h
      revert hx
      revert x
      revert hold
      revert old
      decide

theorem c2_history_bound_witness :
    (snapshot (⟨some c2T, [], [], false, [], []⟩ : AppState)).history =
      [revertHighlights c2T] ∧
    sceneStructEq ((undoIter 3 c2Run).scene) (some (c2Named "a0")) = false := by
  constructor
  · have := c2_history_bound.1 ⟨some c2T, [], [], false, [], []⟩ c2T rfl
    simpa using this
  · exact c2_history_bound.2.2 3 (c2Named "a0") (List.mem_cons_self _ _)

mutual

theorem findMirror_parse : ∀ (t : Obj) (id : String),
    findMirror (parseSceneGraph t) id = (findNodeByUuid t id).map parseSceneGraph
  | .node u n ty m om g p cs, id => by
    by_cases h : u = id
    · subst h
      simp [parseSceneGraph, findMirror, findNodeByUuid]
    · simp only [parseSceneGraph, findMirror, findNodeByUuid, if_neg h]
      exact findMirrorL_parse cs id

theorem findMirrorL_parse : ∀ (cs : List Obj) (id : String),
    findMirrorL (parseChildren cs) id = (findInChildren cs id).map parseSceneGraph
  | [], id => by simp [parseChildren, findMirrorL, findInChildren]
  | c :: rest, id => by
    simp only [parseChildren, findMirrorL, findInChildren, findMirror_parse c id]
    cases findNodeByUuid c id with
    | some r => simp
    | none => simpa using findMirrorL_parse rest id

end

theorem parseSceneGraph_name (t : Obj) (h : t.name ≠ "") : (parseSceneGraph t).name = t.name := by
  cases t with
  | node u n ty m om g p cs =>
    simp only [Obj.name] at h
    simp [parseSceneGraph, SceneNode.name, Obj.name, h]

theorem findNodeByUuid_ne_root (t : Obj) (id : String) (h : t.uuid ≠ id) :
    findNodeByUuid t id = findInChildren t.children id := by
  cases t with
  | node u n ty m om g p cs =>
    simp only [Obj.uuid] at h
    simp [findNodeByUuid, Obj.children, h]

/-- C6: the rename operation as the UI drives it (`handleRename` committing
`renameNode`) sets a node's display name only when the id resolves, the new
name is non-empty and it differs from the current name; in every other case
— in particular an empty string — the state is unchanged. -/
theorem c6_rename_guard (s : AppState) (root : Obj) (id editName : String)
    (hs : s.scene = some root) (hnd : (treeIds root).Nodup)
    (hsync : s.sceneGraph = mirrorOf root) :
    (handleRename id "" s = s) ∧
    (findNodeByUuid root id = none → handleRename id editName s = s) ∧
    (∀ n, findNodeByUuid root id = some n → (editName = "" ∨ editName = n.name) →
      handleRename id editName s = s) ∧
    (∀ n, findNodeByUuid root id = some n → handleRename id editName s ≠ s →
      editName ≠ "" ∧ editName ≠ n.name) := by
  have hm : findMirrorL s.sceneGraph id =
      (findInChildren root.children id).map parseSceneGraph := by
    rw [hsync]
    exact findMirrorL_parse root.children id
  have hguard0 : ∀ w, handleRename id "" w = w := by
    intro w
    unfold handleRename
    split
    · rfl
    · rw [if_neg (fun hand => hand.1 rfl)]
  refine ⟨hguard0 s, ?_, ?_, ?_⟩
  · intro hnone
    have hcs : findInChildren root.children id = none := by
      cases hroot : (decide (root.uuid = id)) with
      | true =>
        have : root.uuid = id := of_decide_eq_true hroot
        rw [(findInChildren_eq_none root.children id).mpr]
        intro hin
        rw [← this] at hin
        cases root with
        | node u n ty m om g p cs =>
          simp only [treeIds] at hnd
          exact (List.nodup_cons.mp hnd).1 (by simpa [Obj.uuid, Obj.children] using hin)
      | false =>
        have hne : root.uuid ≠ id := of_decide_eq_false hroot
        rw [← findNodeByUuid_ne_root root id hne]
        exact hnone
    unfold handleRename
    rw [hm, hcs]
    rfl
  · intro n hfind hor
    by_cases hroot : root.uuid = id
    · have hcs : findInChildren root.children id = none := by
        rw [(findInChildren_eq_none root.children id).mpr]
        intro hin
        rw [← hroot] at hin
        cases root with
        | node u nn ty m om g p cs =>
          simp only [treeIds] at hnd
          exact (List.nodup_cons.mp hnd).1 (by simpa [Obj.uuid, Obj.children] using hin)
      unfold handleRename
      rw [hm, hcs]
      rfl
    · have hcs : findInChildren root.children id = some n := by
        rw [← findNodeByUuid_ne_root root id hroot]
        exact hfind
      rcases hor with rfl | heq
      · exact hguard0 s
      · by_cases hn : n.name = ""
        · rw [heq, hn]
          exact hguard0 s
        · unfold handleRename
          rw [hm, hcs]
          show (if jsTrim editName ≠ "" ∧ editName ≠ (parseSceneGraph n).name then
            renameNode id editName s else s) = s
          rw [if_neg (fun hand => hand.2 (by rw [heq, parseSceneGraph_name n hn]))]
  · intro n hfind hne
    constructor
    · intro he
      subst he
      exact hne (hguard0 s)
    · intro he
      exact hne ((by
        intro hfind2 hor
        by_cases hroot : root.uuid = id
        · have hcs : findInChildren root.children id = none := by
            rw [(findInChildren_eq_none root.children id).mpr]
            intro hin
            rw [← hroot] at hin
            cases root with
            | node u nn ty m om g p cs =>
              simp only [treeIds] at hnd
              exact (List.nodup_cons.mp hnd).1 (by simpa [Obj.uuid, Obj.children] using hin)
          unfold handleRename
          rw [hm, hcs]
          rfl
        · have hcs : findInChildren root.children id = some n := by
            rw [← findNodeByUuid_ne_root root id hroot]
            exact hfind2
          rcases hor with rfl | heq
          · exact hguard0 s
          · by_cases hn : n.name = ""
            · rw [heq, hn]
              exact hguard0 s
            · unfold handleRename
              rw [hm, hcs]
              show (if jsTrim editName ≠ "" ∧ editName ≠ (parseSceneGraph n).name then
                renameNode id editName s else s) = s
              rw [if_neg (fun hand => hand.2 (by rw [heq, parseSceneGraph_name n hn]))] :
        findNodeByUuid root id = some n → (editName = "" ∨ editName = n.name) →
          handleRename id editName s = s) hfind (Or.inr he))

/-! ## C8: the duplicate-name guard of the bulk auto-rename -/

theorem toDigitsCore_eq_digits (n : Nat) : ∀ (f : Nat) (l : List Char), 0 < n → n < f →
    Nat.toDigitsCore 10 f n l = ((Nat.digits 10 n).map Nat.digitChar).reverse ++ l := by
  induction n using Nat.strong_induction_on with
  | _ n ih =>
    intro f l hn hf
    match f, hf with
    | f + 1, hf =>
      rw [Nat.digits_def' (by norm_num : 1 < 10) hn]
      by_cases h0 : n / 10 = 0
      · simp [Nat.toDigitsCore, h0]
      · have hn' : 0 < n / 10 := Nat.pos_of_ne_zero h0
        have hlt : n / 10 < n := Nat.div_lt_self hn (by norm_num)
        have hf' : n / 10 < f := lt_of_lt_of_le hlt (Nat.lt_succ_iff.mp hf)
        simp only [Nat.toDigitsCore, if_neg h0]
        rw [ih (n / 10) hlt f (Nat.digitChar (n % 10) :: l) hn' hf']
        simp [List.append_assoc]

theorem toDigits_eq (n : Nat) (hn : 0 < n) :
    Nat.toDigits 10 n = ((Nat.digits 10 n).map Nat.digitChar).reverse := by
  unfold Nat.toDigits
  rw [toDigitsCore_eq_digits n (n + 1) [] hn (Nat.lt_succ_self n), List.append_nil]

theorem toDigits_ten_zero : Nat.toDigits 10 0 = ['0'] := rfl

theorem digitChar_inj_lt : ∀ a < 10, ∀ b < 10, Nat.digitChar a = Nat.digitChar b → a = b := by
  decide

theorem map_digitChar_inj : ∀ (l1 l2 : List Nat), (∀ d ∈ l1, d < 10) → (∀ d ∈ l2, d < 10) →
    l1.map Nat.digitChar = l2.map Nat.digitChar → l1 = l2
  | [], [], _, _, _ => rfl
  | [], b :: l2, _, _, h => by simp at h
  | a :: l1, [], _, _, h => by simp at h
  | a :: l1, b :: l2, h1, h2, h => by
    simp only [List.map, List.cons.injEq] at h
    have ha := digitChar_inj_lt a (h1 a (by simp)) b (h2 b (by simp)) h.1
    have := map_digitChar_inj l1 l2 (fun d hd => h1 d (by simp [hd]))
      (fun d hd => h2 d (by simp [hd])) h.2
    rw [ha, this]

theorem asString_inj (l1 l2 : List Char) (h : l1.asString = l2.asString) : l1 = l2 := by
  simpa [List.asString] using congrArg String.data h

theorem natRepr_inj : ∀ m n : Nat, Nat.repr m = Nat.repr n → m = n := by
  have key : ∀ n : Nat, 0 < n → Nat.repr n ≠ Nat.repr 0 := by
    intro n hn hcontra
    unfold Nat.repr at hcontra
    have hl : Nat.toDigits 10 n = Nat.toDigits 10 0 :=
      asString_inj _ _ hcontra
    rw [toDigits_ten_zero, toDigits_eq n hn] at hl
    have hmap : (Nat.digits 10 n).map Nat.digitChar = ['0'] := by
      have := congrArg List.reverse hl
      simpa using this
    have hdig : Nat.digits 10 n = [0] := by
      cases hd : Nat.digits 10 n with
      | nil => rw [hd] at hmap; simp at hmap
      | cons a tl =>
        rw [hd] at hmap
        cases tl with
        | nil =>
          simp only [List.map, List.cons.injEq] at hmap
          have ha : a < 10 := Nat.digits_lt_base (by norm_num) (by rw [hd]; simp)
          have : a = 0 := digitChar_inj_lt a ha 0 (by norm_num) (by simpa using hmap.1)
          rw [this]
        | cons b tl2 => simp at hmap
    have : n = Nat.ofDigits 10 [0] := by rw [← hdig, Nat.ofDigits_digits]
    simp [Nat.ofDigits] at this
    omega
  intro m n h
  rcases Nat.eq_zero_or_pos m with rfl | hm
  · rcases Nat.eq_zero_or_pos n with rfl | hn
    · rfl
    · exact absurd h.symm (key n hn)
  · rcases Nat.eq_zero_or_pos n with rfl | hn
    · exact absurd h (key m hm)
    · unfold Nat.repr at h
      have hl := asString_inj _ _ h
      rw [toDigits_eq m hm, toDigits_eq n hn] at hl
      have := List.reverse_injective hl
      have hdig := map_digitChar_inj _ _
        (fun d hd => Nat.digits_lt_base (by norm_num) hd)
        (fun d hd => Nat.digits_lt_base (by norm_num) hd) this
      calc m = Nat.ofDigits 10 (Nat.digits 10 m) := (Nat.ofDigits_digits 10 m).symm
        _ = Nat.ofDigits 10 (Nat.digits 10 n) := by rw [hdig]
        _ = n := Nat.ofDigits_digits 10 n

theorem toString_nat_eq (n : Nat) : toString n = Nat.repr n := rfl

theorem string_data_inj (s t : String) (h : s.data = t.data) : s = t := by
  cases s
  cases t
  exact congrArg String.mk (by simpa using h)

theorem string_append_cancel_left (s t1 t2 : String) (h : s ++ t1 = s ++ t2) : t1 = t2 := by
  apply string_data_inj
  have := congrArg String.data h
  simp only [String.data_append] at this
  exact List.append_cancel_left this

theorem suffix_inj (base : String) : Function.Injective
    (fun k : Nat => base ++ "_" ++ toString (k + 1)) := by
  intro i j h
  have h2 := string_append_cancel_left (base ++ "_") _ _ h
  have h3 : Nat.repr (i + 1) = Nat.repr (j + 1) := by
    rw [← toString_nat_eq, ← toString_nat_eq]
    exact h2
  have := natRepr_inj _ _ h3
  omega

theorem base_ne_suffixed (base : String) (x : String) : base ≠ base ++ "_" ++ x := by
  intro h
  have := congrArg String.length h
  simp only [String.length_append] at this
  have : base.length = base.length + 1 + x.length := by simpa using this
  omega

theorem nameCandidates_nodup (assigned : List String) (base : String) :
    (nameCandidates assigned base).Nodup := by
  unfold nameCandidates
  refine List.Nodup.cons ?_ (List.Nodup.map (suffix_inj base) (List.nodup_range _))
  intro hmem
  obtain ⟨k, _, hk⟩ := List.mem_map.mp hmem
  exact base_ne_suffixed base (toString (k + 1)) hk.symm

theorem nameCandidates_length (assigned : List String) (base : String) :
    (nameCandidates assigned base).length = assigned.length + 2 := by
  simp [nameCandidates]

theorem pickName_find_some (assigned : List String) (base : String) :
    ∃ c, (nameCandidates assigned base).find? (fun c => !assigned.contains c) = some c := by
  cases hf : (nameCandidates assigned base).find? (fun c => !assigned.contains c) with
  | some c => exact ⟨c, rfl⟩
  | none =>
    exfalso
    have hall : ∀ x ∈ nameCandidates assigned base, x ∈ assigned := by
      intro x hx
      have := List.find?_eq_none.mp hf x hx
      simpa using this
    have hsub : nameCandidates assigned base ⊆ assigned := hall
    have hsp := (List.subperm_of_subset (nameCandidates_nodup assigned base) hsub).length_le
    rw [nameCandidates_length] at hsp
    omega

theorem pickName_not_mem (assigned : List String) (base : String) :
    pickName assigned base ∉ assigned := by
  obtain ⟨c, hc⟩ := pickName_find_some assigned base
  have hpred := List.find?_some hc
  have : pickName assigned base = c := by
    unfold pickName
    rw [hc]
    rfl
  rw [this]
  simpa using hpred

theorem pickName_no_collision (assigned : List String) (base : String) (h : base ∉ assigned) :
    pickName assigned base = base := by
  unfold pickName nameCandidates
  rw [List.find?_cons_of_pos _ (by simpa using h)]
  rfl

theorem pickName_collision (assigned : List String) (base : String) (h : base ∈ assigned) :
    ∃ k : Nat, 1 ≤ k ∧ pickName assigned base = base ++ "_" ++ toString k ∧
      pickName assigned base ∉ assigned := by
  obtain ⟨c, hc⟩ := pickName_find_some assigned base
  have hpick : pickName assigned base = c := by
    unfold pickName
    rw [hc]
    rfl
  have hpred := List.find?_some hc
  have hmem := List.mem_of_find?_eq_some hc
  have hcb : c ≠ base := by
    intro he
    rw [he] at hpred
    simp [h] at hpred
  have : c ∈ (List.range (assigned.length + 1)).map
      (fun k => base ++ "_" ++ toString (k + 1)) := by
    rcases (List.mem_cons.mp hmem) with he | hm
    · exact absurd he hcb
    · exact hm
  obtain ⟨k, _, hk⟩ := List.mem_map.mp this
  refine ⟨k + 1, by omega, by rw [hpick, ← hk], ?_⟩
  rw [hpick]
  simpa using hpred

theorem assignNames_aux_nodup (proposed : List String) :
    ∀ acc : List String, acc.Nodup →
      (proposed.foldl (fun acc base => acc ++ [pickName acc base]) acc).Nodup := by
  induction proposed with
  | nil => intro acc h; exact h
  | cons b rest ih =>
    intro acc h
    refine ih (acc ++ [pickName acc b]) ?_
    rw [List.nodup_append]
    exact ⟨h, List.nodup_singleton _, by
      intro x hx hy
      simp at hy
      rw [hy] at hx
      exact pickName_not_mem acc b hx⟩

theorem assignNames_nodup (proposed : List String) : (assignNames proposed).Nodup :=
  assignNames_aux_nodup proposed [] List.nodup_nil

/-- C8: during one bulk-rename batch, a proposed name that collides with a
name already assigned earlier in the batch is replaced by the base name with
an incrementing numeric suffix (`base_1`, `base_2`, …, the first free one);
a non-colliding name is kept as is; hence the names assigned within one
batch are pairwise distinct. -/
theorem c8_bulk_rename_distinct :
    (∀ proposed : List String, (assignNames proposed).Nodup) ∧
    (∀ (assigned : List String) (base : String), base ∉ assigned →
      pickName assigned base = base) ∧
    (∀ (assigned : List String) (base : String), base ∈ assigned →
      ∃ k : Nat, 1 ≤ k ∧ pickName assigned base = base ++ "_" ++ toString k ∧
        pickName assigned base ∉ assigned) :=
  ⟨assignNames_nodup, pickName_no_collision, pickName_collision⟩

theorem c8_bulk_rename_distinct_witness :
    (assignNames ["Leg", "Leg", "Arm"]).Nodup ∧
    pickName ["Arm"] "Leg" = "Leg" ∧
    (∃ k : Nat, 1 ≤ k ∧ pickName ["Leg"] "Leg" = "Leg" ++ "_" ++ toString k ∧
      pickName ["Leg"] "Leg" ∉ ["Leg"]) :=
  ⟨c8_bulk_rename_distinct.1 ["Leg", "Leg", "Arm"],
   c8_bulk_rename_distinct.2.1 ["Arm"] "Leg" (by decide),
   c8_bulk_rename_distinct.2.2 ["Leg"] "Leg" (by decide)⟩

def c6Root : Obj :=
  .node "r" "root" "Group" 0 none [] 0 [.node "a" "A" "Mesh" 1 none [] 0 []]

def c6S : AppState := ⟨some c6Root, mirrorOf c6Root, [], false, [], []⟩

theorem c6_rename_guard_witness :
    handleRename "a" "" c6S = c6S ∧ handleRename "a" "A" c6S = c6S :=
  ⟨(c6_rename_guard c6S c6Root "a" "" rfl (by decide) rfl).1,
   (c6_rename_guard c6S c6Root "a" "A" rfl (by decide) rfl).2.2.1
     (.node "a" "A" "Mesh" 1 none [] 0 []) rfl (Or.inr rfl)⟩

/-! ## C5: merge -/

theorem findNodeByUuid_self (t : Obj) : findNodeByUuid t t.uuid = some t := by
  cases t with
  | node u n ty m om g p cs => simp [findNodeByUuid, Obj.uuid]

theorem detach_none_not_mem (t : Obj) (u : String) (h : detach t u = none)
    (hne : u ≠ t.uuid) : u ∉ treeIds t := by
  intro hmem
  obtain ⟨t', sub, hd⟩ := detach_isSome t u hmem hne
  rw [h] at hd
  cases hd

theorem removeFromParent_of_none (w : Obj) (u : String) (h : detach w u = none) :
    removeFromParent w u = w := by
  unfold removeFromParent
  rw [h]

theorem removeFromParent_of_some (w : Obj) (u : String) (w' sub : Obj)
    (h : detach w u = some (w', sub)) : removeFromParent w u = w' := by
  unfold removeFromParent
  rw [h]

/-- Invariant of the removal loop at the end of `mergeNodes`: with the fresh
merged leaf `nm` sitting as a direct child of the root, removing a batch of
uuids that contains neither the root's nor the fresh one (a) keeps the tree
id-unique, (b) leaves the merged leaf untouched and still a direct child of
the root, (c) eliminates every removed uuid, and (d) only ever shrinks the
id set. -/
theorem removeFold_spec (fid : String) (nm : Obj) (htn : treeIds nm = [fid]) :
    ∀ (l : List Obj) (w : Obj), (treeIds w).Nodup →
    findNodeByUuid w fid = some nm → fid ∈ w.childIds →
    (∀ mObj ∈ l, mObj.uuid ≠ w.uuid ∧ mObj.uuid ≠ fid) →
    (treeIds (l.foldl (fun w m => removeFromParent w m.uuid) w)).Nodup ∧
    findNodeByUuid (l.foldl (fun w m => removeFromParent w m.uuid) w) fid = some nm ∧
    fid ∈ (l.foldl (fun w m => removeFromParent w m.uuid) w).childIds ∧
    (∀ mObj ∈ l, mObj.uuid ∉ treeIds (l.foldl (fun w m => removeFromParent w m.uuid) w)) ∧
    (∀ x ∈ treeIds (l.foldl (fun w m => removeFromParent w m.uuid) w), x ∈ treeIds w) := by
  intro l
  induction l with
  | nil =>
    intro w hnd hfind hchild _
    exact ⟨hnd, hfind, hchild, by simp, fun x hx => hx⟩
  | cons mh rest ih =>
    intro w hnd hfind hchild hids
    have hne_root : mh.uuid ≠ w.uuid := (hids mh (by simp)).1
    have hne_fid : mh.uuid ≠ fid := (hids mh (by simp)).2
    cases hdet : detach w mh.uuid with
    | none =>
      have hstep : removeFromParent w mh.uuid = w := removeFromParent_of_none w mh.uuid hdet
      have hnotin : mh.uuid ∉ treeIds w := detach_none_not_mem w mh.uuid hdet hne_root
      have hfold : (mh :: rest).foldl (fun w m => removeFromParent w m.uuid) w =
          rest.foldl (fun w m => removeFromParent w m.uuid) w := by
        simp [List.foldl_cons, hstep]
      rw [hfold]
      obtain ⟨a, b, c, d, e⟩ := ih w hnd hfind hchild (fun mObj hm => hids mObj (by simp [hm]))
      refine ⟨a, b, c, ?_, e⟩
      intro mObj hm
      rcases List.mem_cons.mp hm with rfl | hm2
      · intro hin
        exact hnotin (e _ hin)
      · exact d mObj hm2
    | some pr =>
      obtain ⟨w1, sub⟩ := pr
      have hstep : removeFromParent w mh.uuid = w1 :=
        removeFromParent_of_some w mh.uuid w1 sub hdet
      have hperm := detach_perm w mh.uuid w1 sub hdet
      have hnd1 : (treeIds w1 ++ treeIds sub).Nodup := hperm.nodup_iff.mp hnd
      have hndw1 : (treeIds w1).Nodup := (List.nodup_append.mp hnd1).1
      have hdisj := (List.nodup_append.mp hnd1).2.2
      have hw1uuid : w1.uuid = w.uuid := detach_root_uuid w mh.uuid w1 sub hdet
      -- the root survives; its child list loses exactly mh.uuid
      have hrootmem : w.uuid ∈ treeIds w1 := hw1uuid ▸ uuid_mem_treeIds w1
      obtain ⟨nq, nq', hq1, hq2, hev⟩ :=
        detach_evolve w mh.uuid w1 sub w.uuid hnd hdet hrootmem
      rw [findNodeByUuid_self w] at hq1
      cases hq1
      have hq2' : nq' = w1 := by
        rw [← hw1uuid] at hq2
        rw [findNodeByUuid_self w1] at hq2
        cases hq2
        rfl
      rw [hq2'] at hev
      have hchild1 : fid ∈ w1.childIds := by
        rw [hev.2.2.2.1]
        exact List.mem_erase_of_ne hne_fid.symm |>.mpr hchild
      -- fid's node survives the detach unchanged
      have hfidw : fid ∈ treeIds w := by
        by_contra hcon
        rw [(findNodeByUuid_eq_none w fid).mpr hcon] at hfind
        cases hfind
      have hfid1 : fid ∈ treeIds w1 := by
        have := childIds_sub_treeIds w1 fid hchild1
        exact this
      obtain ⟨nqf, nqf', hf1, hf2, hevf⟩ :=
        detach_evolve w mh.uuid w1 sub fid hnd hdet hfid1
      rw [hfind] at hf1
      cases hf1
      have : nqf' = nm := hevf.2.2.2.2.2 (by rw [htn]; simp [hne_fid])
      subst this
      -- apply the induction hypothesis to the remaining removals
      have hmhsub : mh.uuid ∈ treeIds sub :=
        detach_sub_uuid w mh.uuid w1 sub hdet ▸ uuid_mem_treeIds sub
      have hmhgone : mh.uuid ∉ treeIds w1 := fun hin => hdisj hin hmhsub
      have hfold : (mh :: rest).foldl (fun w m => removeFromParent w m.uuid) w =
          rest.foldl (fun w m => removeFromParent w m.uuid) w1 := by
        simp [List.foldl_cons, hstep]
      rw [hfold]
      obtain ⟨a, b, c, d, e⟩ := ih w1 hndw1 hf2 hchild1
        (fun mObj hm => ⟨hw1uuid ▸ (hids mObj (by simp [hm])).1,
          (hids mObj (by simp [hm])).2⟩)
      refine ⟨a, b, c, ?_, ?_⟩
      · intro mObj hm
        rcases List.mem_cons.mp hm with rfl | hm2
        · intro hin
          exact hmhgone (e _ hin)
        · exact d mObj hm2
      · intro x hx
        exact (hperm.mem_iff).mpr (List.mem_append_left _ (e x hx))

theorem insertUnder_root_leaf (root : Obj) (nm : Obj) (hleaf : treeIds nm = [nm.uuid])
    (hnd : (treeIds root).Nodup) (hfresh : nm.uuid ∉ treeIds root) :
    (treeIds (insertUnder root root.uuid nm)).Nodup ∧
    findNodeByUuid (insertUnder root root.uuid nm) nm.uuid = some nm ∧
    nm.uuid ∈ (insertUnder root root.uuid nm).childIds ∧
    (insertUnder root root.uuid nm).uuid = root.uuid := by
  cases root with
  | node u n ty m om g p cs =>
    have hins : insertUnder (Obj.node u n ty m om g p cs) (Obj.node u n ty m om g p cs).uuid nm
        = Obj.node u n ty m om g p (cs ++ [nm]) := by
      unfold insertUnder insertUnderOpt
      simp [Obj.uuid]
    rw [hins]
    have hufresh : nm.uuid ≠ u := by
      intro he
      exact hfresh (by simp [treeIds, he])
    have hcsfresh : nm.uuid ∉ treeIdsL cs := by
      intro hin
      exact hfresh (by simp [treeIds, hin])
    have hndu := List.nodup_cons.mp (by simpa [treeIds] using hnd)
    have hidsapp : treeIdsL (cs ++ [nm]) = treeIdsL cs ++ [nm.uuid] := by
      rw [treeIdsL_append]
      simp [treeIdsL, hleaf]
    refine ⟨?_, ?_, ?_, rfl⟩
    · show (u :: treeIdsL (cs ++ [nm])).Nodup
      rw [hidsapp]
      refine List.nodup_cons.mpr ⟨?_, ?_⟩
      · intro hin
        rcases List.mem_append.mp hin with hh | hh
        · exact hndu.1 hh
        · exact hufresh (by simpa using hh : u = nm.uuid).symm
      · refine List.nodup_append.mpr ⟨hndu.2, List.nodup_singleton _, ?_⟩
        intro x hx hy
        rw [show x = nm.uuid by simpa using hy] at hx
        exact hcsfresh hx
    · show findNodeByUuid (Obj.node u n ty m om g p (cs ++ [nm])) nm.uuid = some nm
      simp only [findNodeByUuid]
      rw [if_neg (fun he : u = nm.uuid => hufresh he.symm)]
      rw [findInChildren_append, (findInChildren_eq_none cs _).mpr hcsfresh]
      simp [findInChildren, findNodeByUuid_self]
    · show nm.uuid ∈ childUuids (cs ++ [nm])
      rw [childUuids_append]
      simp [childUuids]

theorem resolvedMeshes_mem (root : Obj) (ids : List String) (mObj : Obj)
    (h : mObj ∈ resolvedMeshes root ids) :
    mObj.typ = "Mesh" ∧ findNodeByUuid root mObj.uuid = some mObj := by
  unfold resolvedMeshes at h
  have h1 := List.mem_filter.mp h
  obtain ⟨a, _, hfa⟩ := List.mem_filterMap.mp h1.1
  have hu : mObj.uuid = a := findNodeByUuid_uuid root a mObj hfa
  exact ⟨by simpa using h1.2, by rw [hu]; exact hfa⟩

/-- C5: as frozen, the claim is false — `BufferGeometryUtils.mergeGeometries`
can return `null` on incompatible contributor geometries and
`if (!mergedGeometry) return` then silently no-ops (see the counterexample).
The corrected statement adds the proviso that the geometry merge succeeds:
with at least two selected ids resolving to meshes AND the merge yielding a
geometry, `mergeNodes` produces exactly one new mesh node — carrying the
first contributor's material and a geometry/position pair that recovers the
combined world-space geometry — inserted as a child of the scene root,
removes every contributing mesh, and sets the selection to exactly the new
id; with fewer than two resolvable meshes, or with the merge returning
`null` (or throwing), it leaves the whole state unchanged. (The scene root
is a `THREE.Group`, hence the `root.typ ≠ "Mesh"` hypothesis; `freshId` is
the THREE-generated uuid, fresh for the tree.) -/
theorem c5_merge_postcondition (s : AppState) (root : Obj) (freshId freshName : String)
    (hs : s.scene = some root) (hnd : (treeIds root).Nodup)
    (hfresh : freshId ∉ treeIds root) (hrootty : root.typ ≠ "Mesh") :
    ((resolvedMeshes root s.selectedNodeIds).length < 2 →
      ∀ ok, mergeNodes freshId freshName ok s = s) ∧
    (mergeNodes freshId freshName false s = s) ∧
    (∀ firstMesh, (resolvedMeshes root s.selectedNodeIds).head? = some firstMesh →
      2 ≤ (resolvedMeshes root s.selectedNodeIds).length →
      ∃ root2,
        (mergeNodes freshId freshName true s).scene = some root2 ∧
        (treeIds root2).Nodup ∧
        findNodeByUuid root2 freshId = some (.node freshId freshName "Mesh"
          (firstMesh.origMat.getD firstMesh.mat) none
          ((combinedWorldGeom root (resolvedMeshes root s.selectedNodeIds)).map
            (fun v => v - bbCenter (combinedWorldGeom root (resolvedMeshes root s.selectedNodeIds))))
          (bbCenter (combinedWorldGeom root (resolvedMeshes root s.selectedNodeIds))) []) ∧
        (((combinedWorldGeom root (resolvedMeshes root s.selectedNodeIds)).map
            (fun v => v - bbCenter (combinedWorldGeom root (resolvedMeshes root s.selectedNodeIds)))).map
          (fun v => v + bbCenter (combinedWorldGeom root (resolvedMeshes root s.selectedNodeIds)))
          = combinedWorldGeom root (resolvedMeshes root s.selectedNodeIds)) ∧
        freshId ∈ root2.childIds ∧
        (∀ mObj ∈ resolvedMeshes root s.selectedNodeIds, mObj.uuid ∉ treeIds root2) ∧
        (mergeNodes freshId freshName true s).selectedNodeIds = [freshId]) := by
  have hle : (resolvedMeshes root s.selectedNodeIds).length ≤ s.selectedNodeIds.length :=
    le_trans (List.length_filter_le _ _) (List.length_filterMap_le _ _)
  refine ⟨?_, ?_, ?_⟩
  · intro hlt ok
    by_cases hids : s.selectedNodeIds.length < 2
    · simp only [mergeNodes, hs, if_pos hids]
    · simp only [mergeNodes, hs, if_neg hids]
      rw [if_pos hlt]
  · simp only [mergeNodes, hs]
    by_cases h1 : s.selectedNodeIds.length < 2
    · rw [if_pos h1]
    · rw [if_neg h1]
      by_cases h2 : (resolvedMeshes root s.selectedNodeIds).length < 2
      · rw [if_pos h2]
      · rw [if_neg h2]
        cases hh : (resolvedMeshes root s.selectedNodeIds).head? with
        | none => rfl
        | some fm => rfl
  · intro firstMesh hhead hlen2
    have hids2 : ¬ (s.selectedNodeIds.length < 2) := by omega
    have hlt2 : ¬ ((resolvedMeshes root s.selectedNodeIds).length < 2) := by omega
    have hred : mergeNodes freshId freshName true s =
        { s with
          scene := some ((resolvedMeshes root s.selectedNodeIds).foldl
            (fun w m => removeFromParent w m.uuid)
            (insertUnder root root.uuid (Obj.node freshId freshName "Mesh"
              (firstMesh.origMat.getD firstMesh.mat) none
              ((combinedWorldGeom root (resolvedMeshes root s.selectedNodeIds)).map
                (fun v => v - bbCenter (combinedWorldGeom root
                  (resolvedMeshes root s.selectedNodeIds))))
              (bbCenter (combinedWorldGeom root (resolvedMeshes root s.selectedNodeIds))) [])))
          sceneGraph := mirrorOf ((resolvedMeshes root s.selectedNodeIds).foldl
            (fun w m => removeFromParent w m.uuid)
            (insertUnder root root.uuid (Obj.node freshId freshName "Mesh"
              (firstMesh.origMat.getD firstMesh.mat) none
              ((combinedWorldGeom root (resolvedMeshes root s.selectedNodeIds)).map
                (fun v => v - bbCenter (combinedWorldGeom root
                  (resolvedMeshes root s.selectedNodeIds))))
              (bbCenter (combinedWorldGeom root (resolvedMeshes root s.selectedNodeIds))) [])))
          selectedNodeIds := [freshId] } := by
      simp only [mergeNodes, hs, if_neg hids2]
      rw [if_neg hlt2, hhead]
      rfl
    set NM : Obj := Obj.node freshId freshName "Mesh"
      (firstMesh.origMat.getD firstMesh.mat) none
      ((combinedWorldGeom root (resolvedMeshes root s.selectedNodeIds)).map
        (fun v => v - bbCenter (combinedWorldGeom root (resolvedMeshes root s.selectedNodeIds))))
      (bbCenter (combinedWorldGeom root (resolvedMeshes root s.selectedNodeIds))) [] with hNM
    have hNMu : NM.uuid = freshId := rfl
    have hleaf : treeIds NM = [NM.uuid] := rfl
    obtain ⟨ha, hb, hc, hd⟩ :=
      insertUnder_root_leaf root NM hleaf hnd (by rw [hNMu]; exact hfresh)
    have hmids : ∀ mObj ∈ resolvedMeshes root s.selectedNodeIds,
        mObj.uuid ≠ (insertUnder root root.uuid NM).uuid ∧ mObj.uuid ≠ freshId := by
      intro mObj hm
      obtain ⟨hty, hfind⟩ := resolvedMeshes_mem root s.selectedNodeIds mObj hm
      have hmem : mObj.uuid ∈ treeIds root := by
        by_contra hcon
        rw [(findNodeByUuid_eq_none root mObj.uuid).mpr hcon] at hfind
        cases hfind
      constructor
      · rw [hd]
        intro he
        rw [he, findNodeByUuid_self root] at hfind
        cases hfind
        exact hrootty hty
      · intro he
        rw [he] at hmem
        exact hfresh hmem
    obtain ⟨r1, r2, r3, r4, r5⟩ :=
      removeFold_spec freshId NM (by rw [hleaf, hNMu]) (resolvedMeshes root s.selectedNodeIds)
        (insertUnder root root.uuid NM) ha (by rw [← hNMu]; exact hb) (hNMu ▸ hc) hmids
    refine ⟨(resolvedMeshes root s.selectedNodeIds).foldl
      (fun w m => removeFromParent w m.uuid) (insertUnder root root.uuid NM),
      by rw [hred], r1, r2, ?_, r3, r4, by rw [hred]⟩
    simp only [List.map_map]
    apply List.map_id''
    intro v
    simp only [Function.comp_apply]
    omega

def c5A : Obj := .node "a" "A" "Mesh" 7 none [10, 20] 1 []

def c5B : Obj := .node "b" "B" "Mesh" 8 (some 9) [30] 2 []

def c5Root : Obj := .node "r" "root" "Group" 0 none [] 100 [c5A, c5B]

def c5S : AppState := ⟨some c5Root, mirrorOf c5Root, ["a", "b"], false, [], []⟩

theorem c5_merge_postcondition_witness :
    ∃ root2,
      (mergeNodes "m" "Merged" true c5S).scene = some root2 ∧
      (treeIds root2).Nodup ∧
      findNodeByUuid root2 "m" = some (.node "m" "Merged" "Mesh"
        (c5A.origMat.getD c5A.mat) none
        ((combinedWorldGeom c5Root (resolvedMeshes c5Root c5S.selectedNodeIds)).map
          (fun v => v - bbCenter (combinedWorldGeom c5Root
            (resolvedMeshes c5Root c5S.selectedNodeIds))))
        (bbCenter (combinedWorldGeom c5Root (resolvedMeshes c5Root c5S.selectedNodeIds))) []) ∧
      (((combinedWorldGeom c5Root (resolvedMeshes c5Root c5S.selectedNodeIds)).map
          (fun v => v - bbCenter (combinedWorldGeom c5Root
            (resolvedMeshes c5Root c5S.selectedNodeIds)))).map
        (fun v => v + bbCenter (combinedWorldGeom c5Root
          (resolvedMeshes c5Root c5S.selectedNodeIds)))
        = combinedWorldGeom c5Root (resolvedMeshes c5Root c5S.selectedNodeIds)) ∧
      "m" ∈ root2.childIds ∧
      (∀ mObj ∈ resolvedMeshes c5Root c5S.selectedNodeIds, mObj.uuid ∉ treeIds root2) ∧
      (mergeNodes "m" "Merged" true c5S).selectedNodeIds = ["m"] :=
  (c5_merge_postcondition c5S c5Root "m" "Merged" rfl (by decide) (by decide) (by decide)).2.2
    c5A rfl (by decide)

/-- C5 counterexample: the selection resolves to two mesh nodes, yet when
`BufferGeometryUtils.mergeGeometries` returns `null` — as it does for meshes
whose geometry layouts are incompatible, e.g. one indexed and one
non-indexed buffer — `if (!mergedGeometry) return` makes the whole call a
silent no-op: no new mesh node appears, the originals stay, and the
selection is untouched, refuting the unconditional N ≥ 2 postcondition. -/
theorem c5_merge_counterexample :
    resolvedMeshes c5Root c5S.selectedNodeIds = [c5A, c5B] ∧
    mergeNodes "m" "Merged" false c5S = c5S ∧
    findNodeByUuid c5Root "m" = none ∧
    c5S.selectedNodeIds = ["a", "b"] :=
  ⟨rfl, rfl, rfl, rfl⟩

/-! ## C4: group -/

mutual

theorem detach_find : ∀ (t : Obj) (id : String) (t' sub : Obj), id ≠ t.uuid →
    detach t id = some (t', sub) → findNodeByUuid t id = some sub
  | .node u n ty m om g p cs, id, t', sub => by
    intro hne hdet
    obtain ⟨cs', hd, rfl⟩ := detach_shape u n ty m om g p cs id t' sub hdet
    have hne2 : u ≠ id := by
      intro he
      apply hne
      simp only [Obj.uuid]
      exact he.symm
    rw [show findNodeByUuid (Obj.node u n ty m om g p cs) id = findInChildren cs id by
      simp [findNodeByUuid, hne2]]
    exact detachL_find cs id cs' sub hd

theorem detachL_find : ∀ (cs : List Obj) (id : String) (cs' : List Obj) (sub : Obj),
    detachL cs id = some (cs', sub) → findInChildren cs id = some sub
  | [], id, cs', sub => by simp [detachL]
  | c :: rest, id, cs', sub => by
    intro h
    rcases detachL_cases c rest id cs' sub h with ⟨hc, h1, h2⟩ | ⟨hc, c', hd, h1⟩ |
      ⟨hc, hdn, rest', hdl, h1⟩
    · subst h2
      have : findNodeByUuid sub id = some sub := by
        rw [← hc]
        exact findNodeByUuid_self sub
      simp [findInChildren, this]
    · have := detach_find c id c' sub (fun he => hc he.symm) hd
      simp [findInChildren, this]
    · have hnone : findNodeByUuid c id = none := by
        rw [findNodeByUuid_eq_none]
        intro hmem
        cases c with
        | node cu cn cty cm com cg cp ccs =>
          rcases (by simpa [treeIds] using hmem : id = cu ∨ id ∈ treeIdsL ccs) with hh | hh
          · exact hc (by simp [Obj.uuid, hh])
          · obtain ⟨a, b, hab⟩ := detachL_isSome ccs id hh
            have : detach (Obj.node cu cn cty cm com cg cp ccs) id =
                some (Obj.node cu cn cty cm com cg cp a, b) := by
              simp [detach, hab]
            rw [this] at hdn
            cases hdn
      simp [findInChildren, hnone, detachL_find rest id rest' sub hdl]

end

mutual

theorem parentUuid_mem : ∀ (t : Obj) (id : String) (pId : String),
    parentUuidOf t id = some pId → pId ∈ treeIds t
  | .node u n ty m om g p cs, id, pId => by
    intro h
    simp only [parentUuidOf] at h
    by_cases hu : u = id
    · rw [if_pos hu] at h
      cases h
    · rw [if_neg hu] at h
      rcases parentUuidL_mem u cs id pId h with hh | hh <;> simp [treeIds, hh]

theorem parentUuidL_mem : ∀ (pu : String) (cs : List Obj) (id : String) (pId : String),
    parentUuidL pu cs id = some pId → pId = pu ∨ pId ∈ treeIdsL cs
  | pu, [], id, pId => by simp [parentUuidL]
  | pu, c :: rest, id, pId => by
    intro h
    simp only [parentUuidL] at h
    by_cases hc : c.uuid = id
    · rw [if_pos hc] at h
      cases h
      exact Or.inl rfl
    · rw [if_neg hc] at h
      cases hp : parentUuidOf c id with
      | some r =>
        rw [hp] at h
        cases h
        exact Or.inr (by simp [treeIdsL, parentUuid_mem c id pId hp])
      | none =>
        rw [hp] at h
        rcases parentUuidL_mem pu rest id pId h with hh | hh
        · exact Or.inl hh
        · exact Or.inr (by simp [treeIdsL, hh])

end

theorem insertUnder_uuid (t : Obj) (g : String) (c : Obj) :
    (insertUnder t g c).uuid = t.uuid := by
  unfold insertUnder
  cases h : insertUnderOpt t g c with
  | some t2 => exact insertUnderOpt_root_uuid t g c t2 h
  | none => rfl

theorem sceneAdd_uuid (w : Obj) (g j : String) : (sceneAdd w g j).uuid = w.uuid := by
  unfold sceneAdd
  cases h : detach w j with
  | some pr =>
    rw [insertUnder_uuid]
    exact detach_root_uuid w j pr.1 pr.2 (by rw [h])
  | none => rfl

mutual

theorem insertUnderOpt_isSome : ∀ (t : Obj) (g : String) (c : Obj), g ∈ treeIds t →
    ∃ t2, insertUnderOpt t g c = some t2
  | .node u n ty m om gm p cs, g, c => by
    intro hmem
    by_cases hu : u = g
    · exact ⟨.node u n ty m om gm p (cs ++ [c]), by simp [insertUnderOpt, hu]⟩
    · have hm : g ∈ treeIdsL cs := by
        rcases (by simpa [treeIds] using hmem : g = u ∨ g ∈ treeIdsL cs) with h | h
        · exact absurd h.symm hu
        · exact h
      obtain ⟨cs2, hl⟩ := insertUnderL_isSome cs g c hm
      exact ⟨.node u n ty m om gm p cs2, by simp [insertUnderOpt, hu, hl]⟩

theorem insertUnderL_isSome : ∀ (cs : List Obj) (g : String) (c : Obj), g ∈ treeIdsL cs →
    ∃ cs2, insertUnderL cs g c = some cs2
  | [], g, c => by simp [treeIdsL]
  | x :: rest, g, c => by
    intro hmem
    simp only [treeIdsL, List.mem_append] at hmem
    cases hx : insertUnderOpt x g c with
    | some x' => exact ⟨x' :: rest, by simp [insertUnderL, hx]⟩
    | none =>
      have hrest : g ∈ treeIdsL rest := by
        rcases hmem with h | h
        · exfalso
          obtain ⟨x', hx'⟩ := insertUnderOpt_isSome x g c h
          rw [hx'] at hx
          cases hx
        · exact h
      obtain ⟨rest', hr⟩ := insertUnderL_isSome rest g c hrest
      exact ⟨x :: rest', by simp [insertUnderL, hx, hr]⟩

end

/-- Invariant carried by the `newGroup.add(node)` fold inside `groupNodes`:
provided the group node `g` sits in the tree with children `acc`, its parent
`cpId` still lists `g`, every pending id resolves to a subtree not containing
`g` and is not the root, then after folding `sceneAdd · g ·` over `todo` the
group's children are `acc ++ todo`, the parent still lists `g`, ids stay
`Nodup` and the root uuid is unchanged. -/
theorem groupFold_spec (g cpId : String) : ∀ (todo : List String) (w : Obj) (acc : List String),
    (treeIds w).Nodup →
    (∃ gN, findNodeByUuid w g = some gN ∧ gN.childIds = acc ∧
      gN.name = "New Group" ∧ gN.typ = "Group") →
    (∃ ncp, findNodeByUuid w cpId = some ncp ∧ g ∈ ncp.childIds) →
    cpId ≠ g →
    (∀ j ∈ todo, ∃ sj, findNodeByUuid w j = some sj ∧ g ∉ treeIds sj ∧ j ≠ w.uuid) →
    (acc ++ todo).Nodup →
    (treeIds (todo.foldl (fun w nId => sceneAdd w g nId) w)).Nodup ∧
    (∃ gN, findNodeByUuid (todo.foldl (fun w nId => sceneAdd w g nId) w) g = some gN ∧
      gN.childIds = acc ++ todo ∧ gN.name = "New Group" ∧ gN.typ = "Group") ∧
    (∃ ncp, findNodeByUuid (todo.foldl (fun w nId => sceneAdd w g nId) w) cpId = some ncp ∧
      g ∈ ncp.childIds) ∧
    (todo.foldl (fun w nId => sceneAdd w g nId) w).uuid = w.uuid
  | [], w, acc => by
    intro hnd hg hcp hcpg htodo hndacc
    rw [List.foldl_nil]
    exact ⟨hnd, by simpa using hg, hcp, rfl⟩
  | j :: rest, w, acc => by
    intro hnd hg hcp hcpg htodo hndacc
    obtain ⟨gN, hgfind, hgacc, hgname, hgtyp⟩ := hg
    obtain ⟨ncp, hcpfind, hcpmem⟩ := hcp
    obtain ⟨sjv, hjfind, hgsj, hjne⟩ := htodo j (List.mem_cons_self j rest)
    have hjmem : j ∈ treeIds w := (findNodeByUuid_isSome w j).mp (by simp [hjfind])
    obtain ⟨w1, sub, hdet⟩ := detach_isSome w j hjmem hjne
    have hsubeq : sjv = sub := by
      have h2 := detach_find w j w1 sub hjne hdet
      rw [hjfind] at h2
      exact Option.some_inj.mp h2
    subst hsubeq
    have hperm1 := detach_perm w j w1 sjv hdet
    have hnd1full : (treeIds w1 ++ treeIds sjv).Nodup := hperm1.nodup_iff.mp hnd
    have hnd1 : (treeIds w1).Nodup := (List.nodup_append.mp hnd1full).1
    have hdisj : List.Disjoint (treeIds w1) (treeIds sjv) := (List.nodup_append.mp hnd1full).2.2
    have hmem_w1 : ∀ x, x ∈ treeIds w → x ∉ treeIds sjv → x ∈ treeIds w1 := by
      intro x hx hxn
      rcases List.mem_append.mp (hperm1.mem_iff.mp hx) with h | h
      · exact h
      · exact absurd h hxn
    have hgw : g ∈ treeIds w := (findNodeByUuid_isSome w g).mp (by simp [hgfind])
    have hgw1 : g ∈ treeIds w1 := hmem_w1 g hgw hgsj
    have hcpsj : cpId ∉ treeIds sjv := by
      intro hin
      have hsf := detach_subfind w j w1 sjv cpId hnd hdet hin
      rw [hcpfind] at hsf
      have hsub := findNodeByUuid_sub_ids sjv cpId ncp hsf.symm
      exact hgsj (hsub g (childIds_sub_treeIds ncp g hcpmem))
    have hcpw : cpId ∈ treeIds w := (findNodeByUuid_isSome w cpId).mp (by simp [hcpfind])
    have hcpw1 : cpId ∈ treeIds w1 := hmem_w1 cpId hcpw hcpsj
    have hgj : g ≠ j := by
      intro he
      apply hgsj
      rw [← he] at hjfind
      rw [← findNodeByUuid_uuid w g sjv hjfind]
      exact uuid_mem_treeIds sjv
    have hjacc : j ∉ acc := by
      intro hin
      exact (List.nodup_append.mp hndacc).2.2 hin (List.mem_cons_self j rest)
    obtain ⟨nq, nq2, hfq, hfq2, hev⟩ := detach_evolve w j w1 sjv g hnd hdet hgw1
    have hnqeq : gN = nq := by
      have h2 := hfq
      rw [hgfind] at h2
      exact Option.some_inj.mp h2
    subst hnqeq
    obtain ⟨mq, mq2, hfc, hfc2, hevc⟩ := detach_evolve w j w1 sjv cpId hnd hdet hcpw1
    have hmqeq : ncp = mq := by
      have h2 := hfc
      rw [hcpfind] at h2
      exact Option.some_inj.mp h2
    subst hmqeq
    have hgmem2 : g ∈ mq2.childIds := by
      rw [hevc.2.2.2.1]
      exact (List.mem_erase_of_ne hgj).mpr hcpmem
    obtain ⟨w2, hins⟩ := insertUnderOpt_isSome w1 g sjv hgw1
    have hperm2 := insertUnderOpt_perm w1 g sjv w2 hins
    have hpermw : List.Perm (treeIds w2) (treeIds w) := hperm2.trans hperm1.symm
    have hnd2 : (treeIds w2).Nodup := hpermw.nodup_iff.mpr hnd
    obtain ⟨pq, pq2, hpf, hpf2, hpev⟩ := insert_evolve w1 g sjv w2 g hnd1 hgsj hins hgw1
    have hpqeq : nq2 = pq := by
      have h2 := hpf
      rw [hfq2] at h2
      exact Option.some_inj.mp h2
    subst hpqeq
    have hguuid : nq2.uuid = g := (hev.1).trans (findNodeByUuid_uuid w g gN hgfind)
    have hjuuid : sjv.uuid = j := findNodeByUuid_uuid w j sjv hjfind
    have hpq2child : pq2.childIds = acc ++ [j] := by
      rw [hpev.2.2.2.1, hev.2.2.2.1, hgacc, List.erase_of_not_mem hjacc, if_pos hguuid, hjuuid]
    obtain ⟨rq, rq2, hrf, hrf2, hrev⟩ := insert_evolve w1 g sjv w2 cpId hnd1 hcpsj hins hcpw1
    have hrqeq : mq2 = rq := by
      have h2 := hrf
      rw [hfc2] at h2
      exact Option.some_inj.mp h2
    subst hrqeq
    have hcpuuid : mq2.uuid = cpId := (hevc.1).trans (findNodeByUuid_uuid w cpId ncp hcpfind)
    have hrq2mem : g ∈ rq2.childIds := by
      rw [hrev.2.2.2.1, if_neg (by rw [hcpuuid]; exact hcpg)]
      simp [hgmem2]
    have hw2uuid : w2.uuid = w.uuid :=
      (insertUnderOpt_root_uuid w1 g sjv w2 hins).trans (detach_root_uuid w j w1 sjv hdet)
    have hrest : ∀ j2 ∈ rest, ∃ sj2, findNodeByUuid w2 j2 = some sj2 ∧ g ∉ treeIds sj2 ∧
        j2 ≠ w2.uuid := by
      intro j2 hj2
      obtain ⟨t0, hf0, hg0, hne0⟩ := htodo j2 (List.mem_cons_of_mem j hj2)
      have hne2 : j2 ≠ w2.uuid := by rw [hw2uuid]; exact hne0
      by_cases hcase : j2 ∈ treeIds sjv
      · have h1 := detach_subfind w j w1 sjv j2 hnd hdet hcase
        rw [hf0] at h1
        have hnw1 : j2 ∉ treeIds w1 := fun hin => hdisj hin hcase
        have h2 := insert_find_in_c w1 g sjv w2 j2 hnw1 hcase hins
        rw [← h1] at h2
        exact ⟨t0, h2, hg0, hne2⟩
      · have hj2w : j2 ∈ treeIds w := (findNodeByUuid_isSome w j2).mp (by simp [hf0])
        have hj2w1 : j2 ∈ treeIds w1 := hmem_w1 j2 hj2w hcase
        obtain ⟨a0, a1, haf, haf2, haev⟩ := detach_evolve w j w1 sjv j2 hnd hdet hj2w1
        have ha0 : t0 = a0 := by
          have h2 := haf
          rw [hf0] at h2
          exact Option.some_inj.mp h2
        subst ha0
        have hga1 : g ∉ treeIds a1 := fun hin => hg0 (haev.2.2.2.2.1 g hin)
        obtain ⟨b0, b1, hbf, hbf2, hbev⟩ := insert_evolve w1 g sjv w2 j2 hnd1 hcase hins hj2w1
        have hb0 : a1 = b0 := by
          have h2 := hbf
          rw [haf2] at h2
          exact Option.some_inj.mp h2
        subst hb0
        have hb1 : b1 = a1 := hbev.2.2.2.2.2 hga1
        exact ⟨a1, hb1 ▸ hbf2, hga1, hne2⟩
    have hndacc2 : ((acc ++ [j]) ++ rest).Nodup := by
      rw [List.append_assoc]
      exact hndacc
    have hrec := groupFold_spec g cpId rest w2 (acc ++ [j]) hnd2
      ⟨pq2, hpf2, hpq2child, (hpev.2.1).trans ((hev.2.1).trans hgname),
        (hpev.2.2.1).trans ((hev.2.2.1).trans hgtyp)⟩
      ⟨rq2, hrf2, hrq2mem⟩ hcpg hrest hndacc2
    have hfold : (j :: rest).foldl (fun w nId => sceneAdd w g nId) w
        = rest.foldl (fun w nId => sceneAdd w g nId) w2 := by
      rw [List.foldl_cons]
      have hstep : sceneAdd w g j = w2 := by
        unfold sceneAdd
        rw [hdet]
        show (insertUnderOpt w1 g sjv).getD w1 = w2
        rw [hins]
        rfl
      rw [hstep]
    rw [hfold]
    obtain ⟨h1, ⟨gN2, hgf2, hgc2, hgn2, hgt2⟩, hcp2, huuid2⟩ := hrec
    refine ⟨h1, ⟨gN2, hgf2, ?_, hgn2, hgt2⟩, hcp2, huuid2.trans hw2uuid⟩
    rw [hgc2, List.append_assoc]
    rfl

/-- C4: Group postcondition. As stated the claim is false (see the
counterexample: when the common parent sits inside a grouped subtree the
whole group leaves the scene). The corrected statement adds two hypotheses —
the resolved ids are pairwise distinct, and the first resolved node's former
parent is not inside any resolved node's subtree. Under those, `groupNodes`
creates a `"New Group"` container under that former parent whose children
are exactly the resolved ids in input order, selects exactly the container,
and keeps the id set duplicate-free; with zero resolved ids it is a no-op. -/
theorem c4_group_amended (s : AppState) (root : Obj) (ids : List String) (freshId : String)
    (hs : s.scene = some root) (hnd : (treeIds root).Nodup)
    (hfresh : freshId ∉ treeIds root) :
    (resolvedGroupIds root ids = [] → groupNodes ids freshId s = s) ∧
    (∀ firstId cpId,
      (resolvedGroupIds root ids).head? = some firstId →
      parentUuidOf root firstId = some cpId →
      (resolvedGroupIds root ids).Nodup →
      (∀ j ∈ resolvedGroupIds root ids, ∀ sj, findNodeByUuid root j = some sj →
        cpId ∉ treeIds sj) →
      ∃ wF, (groupNodes ids freshId s).scene = some wF ∧
        (groupNodes ids freshId s).selectedNodeIds = [freshId] ∧
        (treeIds wF).Nodup ∧ wF.uuid = root.uuid ∧
        ∃ gN, findNodeByUuid wF freshId = some gN ∧ gN.name = "New Group" ∧
          gN.typ = "Group" ∧ gN.childIds = resolvedGroupIds root ids ∧
          ∃ pN, findNodeByUuid wF cpId = some pN ∧ freshId ∈ pN.childIds) := by
  constructor
  · intro hres
    simp only [groupNodes, hs]
    by_cases hids : ids = []
    · rw [if_pos hids]
    · rw [if_neg hids]
      rw [if_pos hres]
  · intro firstId cpId hhead hpar hrnd hanc
    have hres_ne : resolvedGroupIds root ids ≠ [] := by
      intro he
      rw [he] at hhead
      cases hhead
    have hids_ne : ids ≠ [] := by
      intro he
      apply hres_ne
      rw [he]
      rfl
    have hcpmemr : cpId ∈ treeIds root := parentUuid_mem root firstId cpId hpar
    have hcpne : cpId ≠ freshId := fun he => hfresh (he ▸ hcpmemr)
    obtain ⟨w1, hins⟩ := insertUnderOpt_isSome root cpId
      (Obj.node freshId "New Group" "Group" 0 none [] 0 []) hcpmemr
    have hred : groupNodes ids freshId s = { s with
        scene := some ((resolvedGroupIds root ids).foldl
          (fun w nId => sceneAdd w freshId nId) w1)
        sceneGraph := mirrorOf ((resolvedGroupIds root ids).foldl
          (fun w nId => sceneAdd w freshId nId) w1)
        selectedNodeIds := [freshId] } := by
      simp only [groupNodes, hs, if_neg hids_ne, if_neg hres_ne, hhead, hpar]
      rw [show insertUnder root cpId (Obj.node freshId "New Group" "Group" 0 none [] 0 [])
        = w1 by unfold insertUnder; rw [hins]; rfl]
    have hfind_g : findNodeByUuid w1 freshId =
        some (Obj.node freshId "New Group" "Group" 0 none [] 0 []) := by
      have h2 := insert_find_in_c root cpId
        (Obj.node freshId "New Group" "Group" 0 none [] 0 []) w1 freshId hfresh
        (by simp [treeIds, treeIdsL]) hins
      rw [h2]
      exact findNodeByUuid_self _
    have hcpG : cpId ∉ treeIds (Obj.node freshId "New Group" "Group" 0 none [] 0 []) := by
      intro hin
      exact hcpne (by simpa [treeIds, treeIdsL] using hin)
    obtain ⟨cq, cq2, hcf, hcf2, hcev⟩ := insert_evolve root cpId
      (Obj.node freshId "New Group" "Group" 0 none [] 0 []) w1 cpId hnd hcpG hins hcpmemr
    have hfmem : freshId ∈ cq2.childIds := by
      rw [hcev.2.2.2.1, if_pos (findNodeByUuid_uuid root cpId cq hcf)]
      simp [Obj.uuid]
    have hndapp : (treeIds root ++ [freshId]).Nodup := by
      rw [List.nodup_append]
      refine ⟨hnd, List.nodup_singleton _, ?_⟩
      intro x hx hx2
      rw [List.mem_singleton] at hx2
      exact hfresh (hx2 ▸ hx)
    have hperm1 : List.Perm (treeIds w1) (treeIds root ++ [freshId]) := by
      have h2 := insertUnderOpt_perm root cpId
        (Obj.node freshId "New Group" "Group" 0 none [] 0 []) w1 hins
      simpa [treeIds, treeIdsL] using h2
    have hnd1 : (treeIds w1).Nodup := hperm1.nodup_iff.mpr hndapp
    have hw1uuid : w1.uuid = root.uuid := insertUnderOpt_root_uuid root cpId _ w1 hins
    have htodo : ∀ j ∈ resolvedGroupIds root ids, ∃ sj, findNodeByUuid w1 j = some sj ∧
        freshId ∉ treeIds sj ∧ j ≠ w1.uuid := by
      intro j hj
      obtain ⟨hjids, hcond⟩ := List.mem_filter.mp hj
      rw [Bool.and_eq_true] at hcond
      have hjner : j ≠ root.uuid := by simpa using hcond.2
      obtain ⟨sj0, hf0⟩ := Option.isSome_iff_exists.mp (by simpa using hcond.1)
      have hanc_j := hanc j hj sj0 hf0
      have hjmem : j ∈ treeIds root := (findNodeByUuid_isSome root j).mp (by simp [hf0])
      have hjfresh : j ≠ freshId := fun he => hfresh (he ▸ hjmem)
      have hjG : j ∉ treeIds (Obj.node freshId "New Group" "Group" 0 none [] 0 []) := by
        intro hin
        exact hjfresh (by simpa [treeIds, treeIdsL] using hin)
      obtain ⟨d0, d1, hdf, hdf2, hdev⟩ := insert_evolve root cpId
        (Obj.node freshId "New Group" "Group" 0 none [] 0 []) w1 j hnd hjG hins hjmem
      have hd0 : sj0 = d0 := by
        have h2 := hdf
        rw [hf0] at h2
        exact Option.some_inj.mp h2
      subst hd0
      have hd1 : d1 = sj0 := hdev.2.2.2.2.2 hanc_j
      refine ⟨sj0, hd1 ▸ hdf2, ?_, ?_⟩
      · intro hin
        exact hfresh (findNodeByUuid_sub_ids root j sj0 hf0 freshId hin)
      · rw [hw1uuid]
        exact hjner
    have hmain := groupFold_spec freshId cpId (resolvedGroupIds root ids) w1 [] hnd1
      ⟨Obj.node freshId "New Group" "Group" 0 none [] 0 [], hfind_g, rfl, rfl, rfl⟩
      ⟨cq2, hcf2, hfmem⟩ hcpne htodo (by simpa using hrnd)
    refine ⟨(resolvedGroupIds root ids).foldl (fun w nId => sceneAdd w freshId nId) w1,
      by rw [hred], by rw [hred], hmain.1, ?_, ?_⟩
    · rw [hmain.2.2.2, hw1uuid]
    · obtain ⟨gN, hgNf, hgNc, hgNn, hgNt⟩ := hmain.2.1
      exact ⟨gN, hgNf, hgNn, hgNt, by simpa using hgNc, hmain.2.2.1⟩

def c4Root : Obj :=
  .node "r" "root" "Group" 0 none [] 0
    [.node "x" "X" "Group" 0 none [] 0 [.node "y" "Y" "Mesh" 0 none [] 0 []]]

def c4S : AppState := ⟨some c4Root, mirrorOf c4Root, [], false, [], []⟩

/-- C4 counterexample: `Group(["y", "x"])` on the chain `r → x → y`. Both ids
resolve and the first resolved node `y` has the non-null parent `x`, yet after
the call the new container is nowhere in the tree — adding `x` to the group
that lives inside `x`'s own subtree detaches the whole branch from the scene —
so no node with the container's id (or any children at all) exists, refuting
the claimed postcondition; the selection is still set to the vanished id. -/
theorem c4_group_counterexample :
    resolvedGroupIds c4Root ["y", "x"] = ["y", "x"] ∧
    parentUuidOf c4Root "y" = some "x" ∧
    (groupNodes ["y", "x"] "g" c4S).scene =
      some (Obj.node "r" "root" "Group" 0 none [] 0 []) ∧
    findNodeByUuid (Obj.node "r" "root" "Group" 0 none [] 0 []) "g" = none ∧
    (groupNodes ["y", "x"] "g" c4S).selectedNodeIds = ["g"] :=
  ⟨rfl, rfl, rfl, rfl, rfl⟩

def c4WA : Obj := .node "a" "A" "Mesh" 0 none [] 0 []

def c4WRoot : Obj := .node "r" "root" "Group" 0 none [] 0 [c4WA]

def c4WS : AppState := ⟨some c4WRoot, mirrorOf c4WRoot, [], false, [], []⟩

theorem c4_group_amended_witness :
    ∃ wF, (groupNodes ["a"] "g" c4WS).scene = some wF ∧
      (groupNodes ["a"] "g" c4WS).selectedNodeIds = ["g"] ∧
      (treeIds wF).Nodup ∧ wF.uuid = c4WRoot.uuid ∧
      ∃ gN, findNodeByUuid wF "g" = some gN ∧ gN.name = "New Group" ∧
        gN.typ = "Group" ∧ gN.childIds = resolvedGroupIds c4WRoot ["a"] ∧
        ∃ pN, findNodeByUuid wF "r" = some pN ∧ "g" ∈ pN.childIds :=
  (c4_group_amended c4WS c4WRoot ["a"] "g" rfl (by decide) (by decide)).2 "a" "r" rfl rfl
    (by decide)
    (by
      intro j hj sj hsj
      have hres : resolvedGroupIds c4WRoot ["a"] = ["a"] := rfl
      rw [hres] at hj
      have hj2 : j = "a" := by simpa using hj
      subst hj2
      have h2 : findNodeByUuid c4WRoot "a" = some c4WA := rfl
      rw [h2] at hsj
      have hsj2 : c4WA = sj := Option.some_inj.mp hsj
      rw [← hsj2]
      decide)
